import Mathlib

/-!
Verification of the rconv-rs Stepmania parser (src/stepmania.rs, src/common.rs)
against its natural-language specification.

Strings are embedded as `List Char` (Rust iterates `str::chars()`; the few
byte-index operations in the source, `str::find` and `String::remove`, coincide
with the char-index model on the ASCII inputs every claim ranges over).
Machine integers are embedded as `Nat`/`Int` with the explicit range checks that
Rust's `str::parse::<iN>`/`u8::try_from` perform.  Fallible Rust operations that
can panic (`Option::unwrap`) are embedded in `Option`, `none` marking the panic.
Each parser method that pushes into `self.errors` is embedded as a function
returning the list of errors it pushes, in push order.
-/

/-- Error-code enum. `stepmania.rs` refers to a `ParseErrorCode` enum whose
declaration is not under `src/` (only the `u32` constants of `common.rs` are);
modelled from the spec and `common.rs`: one tag per diagnostic kind in the
error catalogue. -/
inductive ParseErrorCode where
  | StepmaniaExpectedPropertyStart
  | StepmaniaInvalidPropertyName
  | StepmaniaUnknownPropertyName
  | StepmaniaDuplicatePropertyName
  | StepmaniaExpectedValueEnd
  | StepmaniaUnexpectedEOF
  | StepmaniaInvalidNumber
  | StepmaniaInvalidString
  | StepmaniaInvalidNumberRange
  | StepmaniaInvalidBoolean
  | StepmaniaInvalidColorValue
  | StepmaniaInvalidValueCount
  | StepmaniaInvalidAttackValue
  | StepmaniaInvalidAttackValueOrder
  deriving DecidableEq, Repr

/-- `common.rs` `ParseError`: code plus position and length. -/
structure ParseError where
  code : ParseErrorCode
  line : Nat
  column : Nat
  len : Nat
  deriving DecidableEq, Repr

/-- `stepmania.rs` `UnparsedPropertyValue`: a raw value span. -/
structure UnparsedPropertyValue where
  raw : List Char
  line : Nat
  column : Nat
  len : Nat
  deriving DecidableEq, Repr

/-- Rust `char::is_whitespace`: the Unicode `White_Space` property
(U+0009..U+000D, U+0020, U+0085, U+00A0, U+1680, U+2000..U+200A, U+2028,
U+2029, U+202F, U+205F, U+3000). -/
def rustIsWhitespace (c : Char) : Bool :=
  decide (('\t' ≤ c ∧ c ≤ '\r') ∨ c = ' ' ∨ c = '\u0085' ∨ c = '\u00A0' ∨
    c = '\u1680' ∨ ('\u2000' ≤ c ∧ c ≤ '\u200A') ∨ c = '\u2028' ∨ c = '\u2029' ∨
    c = '\u202F' ∨ c = '\u205F' ∨ c = '\u3000')

/-- Rust `str::trim`: drop Unicode whitespace from both ends. -/
def trimChars (l : List Char) : List Char :=
  ((l.dropWhile rustIsWhitespace).reverse.dropWhile rustIsWhitespace).reverse

/-- Numeric value of a digit string, as `str::parse` accumulates it. -/
def digitsToNat (l : List Char) : Nat :=
  l.foldl (fun acc c => acc * 10 + (c.toNat - '0'.toNat)) 0

/-- Shared body of `parseI64`: a non-empty all-digit string within the i64
range parses to its (signed) value. -/
def parseI64core (sign : Int) (ds : List Char) : Option Int :=
  if ds.isEmpty then none
  else if ds.all Char.isDigit then
    let v : Int := sign * (digitsToNat ds : Int)
    if -(2 ^ 63) ≤ v ∧ v ≤ 2 ^ 63 - 1 then some v else none
  else none

/-- Rust `str::parse::<i64>`: optional sign, then ASCII digits, rejecting
overflow past the i64 range. -/
def parseI64 (l : List Char) : Option Int :=
  match l with
  | [] => none
  | c :: rest =>
    if c = '+' then parseI64core 1 rest
    else if c = '-' then parseI64core (-1) rest
    else parseI64core 1 (c :: rest)

/-- Rust `str::parse::<u16>`: optional '+', then ASCII digits, value < 2^16. -/
def parseU16 (l : List Char) : Option Nat :=
  let core (ds : List Char) : Option Nat :=
    if ds.isEmpty then none
    else if ds.all Char.isDigit then
      if digitsToNat ds ≤ 2 ^ 16 - 1 then some (digitsToNat ds) else none
    else none
  match l with
  | [] => none
  | c :: rest => if c = '+' then core rest else core (c :: rest)

/-- `PRECISION_TIME` from `stepmania.rs`. -/
def PRECISION_TIME : Nat := 3

/-- Value computation of `StepmaniaParser::parse_to_number` (`stepmania.rs`):
trim, locate the first `.`, append `precision` zero digits, then if a dot was
present delete it and truncate to `idx + precision` characters, finally parse
the trimmed result as an i64. -/
def parseNumRaw (raw : List Char) (precision : Nat) : Option Int :=
  let str1 := trimChars raw
  let idx := str1.findIdx? (· = '.')
  let str2 := str1 ++ List.replicate precision '0'
  let str3 :=
    match idx with
    | some i => (str2.eraseIdx i).take (i + precision)
    | none => str2
  parseI64 (trimChars str3)

/-- `StepmaniaParser::parse_to_number`: on parse failure pushes one
`InvalidNumber` error carrying the original span's position. -/
def parse_to_number (value : UnparsedPropertyValue) (precision : Nat) :
    Option Int × List ParseError :=
  match parseNumRaw value.raw precision with
  | some v => (some v, [])
  | none =>
    (none, [⟨ParseErrorCode.StepmaniaInvalidNumber, value.line, value.column, value.len⟩])

/-- `ParserState` from `stepmania.rs` (the two quote states are reserved and
never entered). -/
inductive ParserState where
  | Clean
  | Name
  | Value
  | DoubleQuouteValue
  | SingleQouoteValue
  deriving DecidableEq, Repr

/-- Key membership in the property map (Rust `HashMap::contains_key`,
embedded as an association list). -/
def assocContains (m : List (List Char × UnparsedPropertyValue)) (k : List Char) : Bool :=
  m.any (fun p => decide (p.1 = k))

/-- Lookup in the property map (Rust `HashMap::get`). -/
def assocFind (m : List (List Char × UnparsedPropertyValue)) (k : List Char) :
    Option UnparsedPropertyValue :=
  (m.find? (fun p => decide (p.1 = k))).map (·.2)

/-- Insertion in the property map (Rust `HashMap::insert`: overwrites an
existing entry for the key). -/
def assocInsert (m : List (List Char × UnparsedPropertyValue)) (k : List Char)
    (v : UnparsedPropertyValue) : List (List Char × UnparsedPropertyValue) :=
  if assocContains m k then m.map (fun p => if p.1 = k then (k, v) else p)
  else m ++ [(k, v)]

/-- Membership in the transient open-diagnostics map `latest_errors`. -/
def leContains (le : List (ParseErrorCode × ParseError)) (code : ParseErrorCode) : Bool :=
  le.any (fun p => decide (p.1 = code))

/-- The scanning state of `StepmaniaParser` (line, col, start_pos, errors,
latest_errors, latest_name) together with the local `map` and `state` of
`parse_to_property_map`. -/
structure LexSt where
  line : Nat
  col : Nat
  startPos : Nat
  errors : List ParseError
  latestErrors : List (ParseErrorCode × ParseError)
  latestName : List Char
  pstate : ParserState
  map : List (List Char × UnparsedPropertyValue)
  deriving DecidableEq, Repr

/-- `StepmaniaParser::update_read`: a line break bumps the line and resets the
column, any other character bumps the column. -/
def update_read (st : LexSt) (c : Char) : LexSt :=
  if c = '\n' then { st with line := st.line + 1, col := 0 }
  else { st with col := st.col + 1 }

/-- `StepmaniaParser::create_error`: the `len` field initially stores the
position `pos` (fixed up later by `cleanup_error`). -/
def create_error (st : LexSt) (code : ParseErrorCode) (pos : Nat) : ParseError :=
  ⟨code, st.line, st.col, pos⟩

/-- `StepmaniaParser::create_and_push_error`: opens a diagnostic of the given
kind in `latest_errors` if none is open. -/
def create_and_push_error (st : LexSt) (code : ParseErrorCode) (pos : Nat) : LexSt :=
  if leContains st.latestErrors code then st
  else { st with latestErrors := st.latestErrors ++ [(code, create_error st code pos)] }

/-- `StepmaniaParser::cleanup_error`: if a diagnostic of the kind is open,
closes it (length becomes `pos - start`) and appends it to `errors`. -/
def cleanup_error (st : LexSt) (code : ParseErrorCode) (pos : Nat) : LexSt :=
  match st.latestErrors.find? (fun p => decide (p.1 = code)) with
  | none => st
  | some p =>
    { st with
      latestErrors := st.latestErrors.filter (fun q => decide (q.1 ≠ code)),
      errors := st.errors ++ [{ p.2 with len := pos - p.2.len }] }

/-- One step of the `parse_to_property_map` scanning loop on character `c` at
position `pos` of `input`. The source folds the captured name with
`String::to_lowercase`; here it is embedded per character as `Char.toLower`,
which agrees with the source exactly on ASCII names — the property-map
theorems quantify only over units with ASCII names (`wfUnit`). -/
def lexStep (input : List Char) (st : LexSt) (pos : Nat) (c : Char) : LexSt :=
  match st.pstate with
  | ParserState.Clean =>
    if rustIsWhitespace c then update_read st c
    else if c ≠ '#' then
      update_read (create_and_push_error st ParseErrorCode.StepmaniaExpectedPropertyStart pos) c
    else
      let st1 := cleanup_error st ParseErrorCode.StepmaniaExpectedPropertyStart pos
      update_read { st1 with pstate := ParserState.Name, startPos := pos + 1 } c
  | ParserState.Name =>
    if rustIsWhitespace c then
      update_read (create_and_push_error st ParseErrorCode.StepmaniaInvalidPropertyName pos) c
    else if c ≠ ':' then update_read st c
    else
      let nm := ((input.drop st.startPos).take (pos - st.startPos)).map Char.toLower
      let st1 := { st with latestName := nm }
      let st2 :=
        if assocContains st1.map nm then
          { st1 with
            errors := st1.errors ++
              [{ create_error st1 ParseErrorCode.StepmaniaDuplicatePropertyName st1.startPos with
                 len := nm.length }] }
        else st1
      let st3 := cleanup_error st2 ParseErrorCode.StepmaniaExpectedPropertyStart pos
      update_read { st3 with pstate := ParserState.Value, startPos := pos + 1 } c
  | ParserState.Value =>
    if c = ':' then
      update_read (create_and_push_error st ParseErrorCode.StepmaniaExpectedValueEnd pos) c
    else if c ≠ ';' then update_read st c
    else
      let len := pos - st.startPos
      let v := (input.drop st.startPos).take len
      let st1 := { st with map := assocInsert st.map st.latestName ⟨v, st.line, st.col, len⟩ }
      update_read { st1 with pstate := ParserState.Clean } c
  | _ => st

/-- The `for (current_pos, c) in input.chars().enumerate()` loop of
`parse_to_property_map`. -/
def lexLoop (input : List Char) : LexSt → Nat → List Char → LexSt
  | st, _, [] => st
  | st, pos, c :: cs => lexLoop input (lexStep input st pos c) (pos + 1) cs

/-- `StepmaniaParser::new()`: line starts at 1, everything else at its
default. -/
def initLexSt : LexSt :=
  ⟨1, 0, 0, [], [], [], ParserState.Clean, []⟩

/-- `StepmaniaParser::parse_to_property_map`, returning the final scanning
state (its `map` field is the returned property map, `errors` the diagnostics
pushed so far). An input ending in the `Value` state only opens an
`ExpectedValueEnd` diagnostic in `latest_errors`. -/
def parse_to_property_map (input : List Char) : LexSt :=
  let fin := lexLoop input initLexSt 0 input
  if fin.pstate = ParserState.Value then
    create_and_push_error fin ParseErrorCode.StepmaniaExpectedValueEnd input.length
  else fin

/-- Scanning state of `parse_to_value_entries`: result list, the group being
built, the `has_latest` flag (set only when an `=` field separator was seen),
and position bookkeeping. -/
structure SplitSt where
  list : List (List UnparsedPropertyValue)
  latestObj : List UnparsedPropertyValue
  hasLatest : Bool
  line : Nat
  column : Nat
  startPos : Nat
  deriving DecidableEq, Repr

/-- One step of the `parse_to_value_entries` loop on character `c` at
position `pos`. -/
def splitStep (raw : List Char) (groups : Bool) (st : SplitSt) (pos : Nat) (c : Char) :
    SplitSt :=
  if c = '=' ∧ groups then
    let len := pos - st.startPos
    { st with
      latestObj := st.latestObj ++ [⟨(raw.drop st.startPos).take len, st.line, st.column, len⟩],
      column := st.column + 1, hasLatest := true, startPos := pos + 1 }
  else if c = ',' then
    let len := pos - st.startPos
    let obj :=
      if len > 0 then
        st.latestObj ++ [⟨(raw.drop st.startPos).take len, st.line, st.column, len⟩]
      else st.latestObj
    { st with
      list := st.list ++ [obj], latestObj := [], hasLatest := false,
      column := st.column + 1, startPos := pos + 1 }
  else if c = '\n' then { st with line := st.line + 1, column := 0 }
  else { st with column := st.column + 1 }

/-- The enumerated character loop of `parse_to_value_entries`. -/
def splitLoop (raw : List Char) (groups : Bool) : SplitSt → Nat → List Char → SplitSt
  | st, _, [] => st
  | st, pos, c :: cs => splitLoop raw groups (splitStep raw groups st pos c) (pos + 1) cs

/-- `StepmaniaParser::parse_to_value_entries`: the two-level group splitter
(`,` separates groups; `=` separates fields when `groups` is true).  After the
loop, a lingering group is flushed only when `has_latest` is set. -/
def parse_to_value_entries (value : UnparsedPropertyValue) (groups : Bool) :
    List (List UnparsedPropertyValue) :=
  let fin := splitLoop value.raw groups ⟨[], [], false, value.line, value.column, 0⟩ 0 value.raw
  if fin.hasLatest then
    let len := value.raw.length - fin.startPos
    let obj :=
      if len > 0 then
        fin.latestObj ++
          [⟨(value.raw.drop fin.startPos).take len, fin.line, fin.column, len⟩]
      else fin.latestObj
    fin.list ++ [obj]
  else fin.list

/-- `StepmaniaParser::add_value_count_error`: one `InvalidValueCount` error at
the first field's position, spanning the field lengths plus the separators.
`none` models the `entry.get(0).unwrap()` panic on an empty group. -/
def add_value_count_error (entry : List UnparsedPropertyValue) : Option ParseError :=
  match entry with
  | [] => none
  | first :: _ =>
    some ⟨ParseErrorCode.StepmaniaInvalidValueCount, first.line, first.column,
      (entry.length - 1) + (entry.map (·.len)).sum⟩

/-- The body of the `parse_value_group` loop for one group: groups shorter
than `min` are skipped, groups shorter than `max` get one `InvalidValueCount`
error, surviving groups are handed to the mapper.  The outer `Option` models
a panic in `add_value_count_error` or in the mapper. -/
def groupBody {T : Type} (min max : Nat)
    (mapper : List UnparsedPropertyValue → Option (Option T × List ParseError))
    (acc : List T × List ParseError) (group : List UnparsedPropertyValue) :
    Option (List T × List ParseError) :=
  if group.length < min then some acc
  else
    let cntErrs : Option (List ParseError) :=
      if group.length < max then (add_value_count_error group).map (fun e => [e])
      else some []
    match cntErrs with
    | none => none
    | some ce =>
      match mapper group with
      | none => none
      | some (r, merrs) => some (acc.1 ++ r.toList, acc.2 ++ ce ++ merrs)

/-- `StepmaniaParser::parse_value_group`, parameterised by the record mapper
(the Rust closure).  Returns the record list and the errors pushed, or `none`
if some step panicked. -/
def parse_value_group {T : Type} (value : UnparsedPropertyValue) (min max : Nat)
    (mapper : List UnparsedPropertyValue → Option (Option T × List ParseError)) :
    Option (List T × List ParseError) :=
  (parse_to_value_entries value true).foldlM (groupBody min max mapper) ([], [])

/-- `StepmaniaInstrumentTrack` from `stepmania.rs`. -/
structure StepmaniaInstrumentTrack where
  instrument : List Char
  file : List Char
  deriving DecidableEq, Repr

/-- `StepmaniaParser::parse_to_instrument_track`: unchecked accesses to
fields 0 and 1 (`group.get(..).unwrap()`), both whitespace-trimmed. `none`
models the panic on a group with fewer than two fields. -/
def parse_to_instrument_track (group : List UnparsedPropertyValue) :
    Option (Option StepmaniaInstrumentTrack × List ParseError) :=
  match group with
  | g0 :: g1 :: _ => some (some ⟨trimChars g0.raw, trimChars g1.raw⟩, [])
  | _ => none

/-- `StepmaniaColor` from `stepmania.rs`; channels are `u8`, embedded as
`Nat` values below 256. -/
structure StepmaniaColor where
  red : Nat
  green : Nat
  blue : Nat
  alpha : Nat
  deriving DecidableEq, Repr

/-- `impl Default for StepmaniaColor`: `0,0,0,255`. -/
def defaultColor : StepmaniaColor := ⟨0, 0, 0, 255⟩

/-- Exact-rational stand-in for Rust `str::parse::<f32>` on plain decimal
literals (optional sign, integer digits, optional fraction).  The source
decodes color channels through IEEE-754 `f32`; that bit-level rounding is not
reproduced here, and no theorem below depends on values of this function —
`parse_to_color` only reaches it past a `^` separator. -/
def parseF32model (l : List Char) : Option ℚ :=
  let core (ds : List Char) : Option ℚ :=
    match ds.span Char.isDigit with
    | (ip, []) => if ip.isEmpty then none else some (digitsToNat ip : ℚ)
    | (ip, '.' :: fp) =>
      if fp.all Char.isDigit ∧ ¬(ip.isEmpty ∧ fp.isEmpty) then
        some ((digitsToNat ip : ℚ) + (digitsToNat fp : ℚ) / (10 : ℚ) ^ fp.length)
      else none
    | _ => none
  match l with
  | [] => none
  | c :: rest =>
    if c = '+' then core rest
    else if c = '-' then (core rest).map (fun q => -q)
    else core (c :: rest)

/-- `StepmaniaParser::parse_to_color_channel`: parse the trimmed span as a
float, clamp to `[0,1]`, scale by 255 and truncate to `u8`; failure records
one `InvalidColorValue` error. -/
def parse_to_color_channel (value : UnparsedPropertyValue) : Option Nat × List ParseError :=
  match parseF32model (trimChars value.raw) with
  | some q => (some (Int.toNat ((255 : ℚ) * (max 0 (min q 1))).floor), [])
  | none =>
    (none, [⟨ParseErrorCode.StepmaniaInvalidColorValue, value.line, value.column, value.len⟩])

/-- Scanning state of `parse_to_color`. -/
structure ColorSt where
  startPos : Nat
  line : Nat
  column : Nat
  color : StepmaniaColor
  colorPos : Nat
  errors : List ParseError
  deriving DecidableEq, Repr

/-- The `match color_pos` assignment of a decoded channel value. -/
def colorAssign (color : StepmaniaColor) (colorPos : Nat) (cv : Nat) : StepmaniaColor :=
  match colorPos with
  | 0 => { color with red := cv }
  | 1 => { color with green := cv }
  | 2 => { color with blue := cv }
  | 3 => { color with alpha := cv }
  | _ => color

/-- One step of the `parse_to_color` loop: non-`^` characters only track the
position; a `^` decodes the channel slice accumulated since `start_pos`. -/
def colorStep (raw : List Char) (st : ColorSt) (pos : Nat) (c : Char) : ColorSt :=
  if c ≠ '^' then
    if c = '\n' then { st with line := st.line + 1, column := 0 }
    else { st with column := st.column + 1 }
  else
    let len := pos - st.startPos
    let dec := parse_to_color_channel ⟨(raw.drop st.startPos).take len, st.line, st.column, len⟩
    let color' :=
      match dec.1 with
      | some cv => colorAssign st.color st.colorPos cv
      | none => st.color
    { st with
      errors := st.errors ++ dec.2, color := color',
      startPos := pos + 1, colorPos := st.colorPos + 1, column := st.column + 1 }

/-- The enumerated character loop of `parse_to_color`. -/
def colorLoop (raw : List Char) : ColorSt → Nat → List Char → ColorSt
  | st, _, [] => st
  | st, pos, c :: cs => colorLoop raw (colorStep raw st pos c) (pos + 1) cs

/-- `StepmaniaParser::parse_to_color`: split on `^` into up to four channels;
a trailing channel is decoded only when `start_pos > 0`, i.e. only when at
least one `^` was seen (the trailing slice length is `len - start_pos + 1`,
as in the source). -/
def parse_to_color (value : UnparsedPropertyValue) : StepmaniaColor × List ParseError :=
  let fin := colorLoop value.raw ⟨0, value.line, value.column, defaultColor, 0, []⟩ 0 value.raw
  if fin.startPos > 0 then
    let len := value.raw.length - fin.startPos + 1
    let dec := parse_to_color_channel ⟨(value.raw.drop fin.startPos).take len, fin.line, fin.column, len⟩
    let color' :=
      match dec.1 with
      | some cv => colorAssign fin.color fin.colorPos cv
      | none => fin.color
    (color', fin.errors ++ dec.2)
  else (fin.color, fin.errors)

/-- `StepmaniaMagnitude` from `stepmania.rs`. -/
inductive StepmaniaMagnitude where
  | Percent (amount : Nat)
  | Amount (amount : Int)
  deriving DecidableEq, Repr

/-- `StepmaniaAttackModifier` from `stepmania.rs`. -/
structure StepmaniaAttackModifier where
  name : List Char
  player : Option (List Char)
  approach_rate : Option Nat
  magnitude : StepmaniaMagnitude
  deriving DecidableEq, Repr

/-- `StepmaniaAttack` from `stepmania.rs`. -/
structure StepmaniaAttack where
  start : Int
  duration : Int
  modifiers : List StepmaniaAttackModifier
  deriving DecidableEq, Repr

/-- `StepmaniaParser::parse_attack_modifiers`: the source returns `vec![]`
and pushes no error. -/
def parse_attack_modifiers (_value : UnparsedPropertyValue) :
    List StepmaniaAttackModifier × List ParseError :=
  ([], [])

/-- Scanning state of `parse_attacks`: result list, in-progress segment name
and accumulators, the 3-slot rotation index, and position bookkeeping. -/
structure AttackSt where
  list : List StepmaniaAttack
  segmentName : List Char
  startVal : Int
  lenVal : Int
  elementIdx : Nat
  currentLine : Nat
  currentPos : Nat
  startLine : Nat
  startPos : Nat
  errors : List ParseError
  deriving DecidableEq, Repr

/-- The `match (element_idx, segment_name)` block of the `parse_attacks`
loop, applied to the value slice `tmp` of length `len` that ends at a `:`
separator. -/
def attackSegLoop (st : AttackSt) (tmp : UnparsedPropertyValue) (len : Nat) : AttackSt :=
  if st.segmentName = "time".toList then
    let st1 :=
      if st.elementIdx ≠ 0 then
        { st with
          errors := st.errors ++
            [⟨ParseErrorCode.StepmaniaInvalidAttackValueOrder, st.startLine, st.startPos, len⟩],
          elementIdx := 0 }
      else st
    let dec := parse_to_number tmp PRECISION_TIME
    match dec.1 with
    | some time => { st1 with errors := st1.errors ++ dec.2, startVal := time }
    | none => { st1 with errors := st1.errors ++ dec.2 }
  else if st.elementIdx = 1 ∧ (st.segmentName = "end".toList ∨ st.segmentName = "len".toList) then
    let dec := parse_to_number tmp PRECISION_TIME
    match dec.1 with
    | some val =>
      { st with
        errors := st.errors ++ dec.2,
        lenVal := if st.segmentName = "len".toList then val else val - st.startVal }
    | none => { st with errors := st.errors ++ dec.2 }
  else if st.elementIdx = 2 ∧ st.segmentName = "mods".toList then
    let dec := parse_attack_modifiers tmp
    { st with
      errors := st.errors ++ dec.2,
      list := st.list ++ [⟨st.startVal, st.lenVal, dec.1⟩],
      startVal := 0, lenVal := 0 }
  else
    { st with
      errors := st.errors ++
        [⟨ParseErrorCode.StepmaniaInvalidAttackValue, st.startLine, st.startPos, len⟩] }

/-- The duplicated `match (element_idx, segment_name)` block that
`parse_attacks` runs on the trailing segment after the loop; identical to the
in-loop block except that the `(2, "mods")` arm does not reset the
accumulators. -/
def attackSegTail (st : AttackSt) (tmp : UnparsedPropertyValue) (len : Nat) : AttackSt :=
  if st.segmentName = "time".toList then
    let st1 :=
      if st.elementIdx ≠ 0 then
        { st with
          errors := st.errors ++
            [⟨ParseErrorCode.StepmaniaInvalidAttackValueOrder, st.startLine, st.startPos, len⟩],
          elementIdx := 0 }
      else st
    let dec := parse_to_number tmp PRECISION_TIME
    match dec.1 with
    | some time => { st1 with errors := st1.errors ++ dec.2, startVal := time }
    | none => { st1 with errors := st1.errors ++ dec.2 }
  else if st.elementIdx = 1 ∧ (st.segmentName = "end".toList ∨ st.segmentName = "len".toList) then
    let dec := parse_to_number tmp PRECISION_TIME
    match dec.1 with
    | some val =>
      { st with
        errors := st.errors ++ dec.2,
        lenVal := if st.segmentName = "len".toList then val else val - st.startVal }
    | none => { st with errors := st.errors ++ dec.2 }
  else if st.elementIdx = 2 ∧ st.segmentName = "mods".toList then
    let dec := parse_attack_modifiers tmp
    { st with
      errors := st.errors ++ dec.2,
      list := st.list ++ [⟨st.startVal, st.lenVal, dec.1⟩] }
  else
    { st with
      errors := st.errors ++
        [⟨ParseErrorCode.StepmaniaInvalidAttackValue, st.startLine, st.startPos, len⟩] }

/-- One step of the `parse_attacks` character loop: `=` captures the segment
key (trimmed, lowercased), `:` processes the segment value and advances the
3-slot rotation; the line counter and `current_pos` are updated afterwards. -/
def attackStep (raw : List Char) (st : AttackSt) (c : Char) : AttackSt :=
  let st1 :=
    if c = '=' then
      let len := st.currentPos - st.startPos
      { st with
        segmentName := (trimChars ((raw.drop st.startPos).take len)).map Char.toLower,
        startLine := st.currentLine, startPos := st.currentPos + 1 }
    else if c = ':' then
      let len := st.currentPos - st.startPos
      let tmp : UnparsedPropertyValue :=
        ⟨(raw.drop st.startPos).take len, st.startLine, st.startPos, len⟩
      let st' := attackSegLoop st tmp len
      { st' with
        startLine := st.currentLine, startPos := st.currentPos + 1,
        elementIdx := (st'.elementIdx + 1) % 3 }
    else st
  let st2 := if c = '\n' then { st1 with currentLine := st1.currentLine + 1 } else st1
  { st2 with currentPos := st2.currentPos + 1 }

/-- The character loop of `parse_attacks`. -/
def attackLoop (raw : List Char) : AttackSt → List Char → AttackSt
  | st, [] => st
  | st, c :: cs => attackLoop raw (attackStep raw st c) cs

/-- `StepmaniaParser::parse_attacks`: scan the segments, then process the
trailing segment (after the final `:`) with the duplicated match block. -/
def parse_attacks (value : UnparsedPropertyValue) : List StepmaniaAttack × List ParseError :=
  let fin := attackLoop value.raw
    ⟨[], [], 0, 0, 0, value.line, 0, value.line, 0, []⟩ value.raw
  let len := value.raw.length - fin.startPos
  let tmp : UnparsedPropertyValue :=
    ⟨(value.raw.drop fin.startPos).take len, fin.startLine, fin.startPos, len⟩
  let fin2 := attackSegTail fin tmp len
  (fin2.list, fin2.errors)

/-- `StepmaniaNoteType` from `stepmania.rs`. -/
inductive StepmaniaNoteType where
  | Empty
  | Tap
  | HoldHead
  | RollHead
  | Tail
  | Mine
  | Keysound
  | Lift
  | Fake
  deriving DecidableEq, Repr

/-- `StepmaniaNoteType::from_char`: `0,1,2,4,3,M,K,L,F`; anything else maps
to `Empty`. -/
def StepmaniaNoteType.from_char (c : Char) : StepmaniaNoteType :=
  if c = '0' then StepmaniaNoteType.Empty
  else if c = '1' then StepmaniaNoteType.Tap
  else if c = '2' then StepmaniaNoteType.HoldHead
  else if c = '4' then StepmaniaNoteType.RollHead
  else if c = '3' then StepmaniaNoteType.Tail
  else if c = 'M' then StepmaniaNoteType.Mine
  else if c = 'K' then StepmaniaNoteType.Keysound
  else if c = 'L' then StepmaniaNoteType.Lift
  else if c = 'F' then StepmaniaNoteType.Fake
  else StepmaniaNoteType.Empty

/-- `StepmaniaDifficulty` from `stepmania.rs`. -/
inductive StepmaniaDifficulty where
  | Beginner
  | Easy
  | Medium
  | Hard
  | Challenge
  | Edit
  deriving DecidableEq, Repr

/-- `StepmaniaDifficulty::from_str` (the `"challange"` spelling is the
source's own). -/
def StepmaniaDifficulty.from_str (s : List Char) : StepmaniaDifficulty :=
  let l := s.map Char.toLower
  if l = "beginner".toList then StepmaniaDifficulty.Beginner
  else if l = "easy".toList then StepmaniaDifficulty.Easy
  else if l = "medium".toList then StepmaniaDifficulty.Medium
  else if l = "hard".toList then StepmaniaDifficulty.Hard
  else if l = "challange".toList then StepmaniaDifficulty.Challenge
  else StepmaniaDifficulty.Edit

/-- `StepmaniaRadarValues`: five `f32` ratings; only the all-zero default is
ever produced by the source (`parse_to_radio_values` ignores its input), so
the fields are embedded as rationals. -/
structure StepmaniaRadarValues where
  stream : ℚ
  voltage : ℚ
  air : ℚ
  freeze : ℚ
  chaos : ℚ
  deriving DecidableEq, Repr

/-- `StepmaniaNoteAttack` from `stepmania.rs`. -/
structure StepmaniaNoteAttack where
  duration : Int
  modifiers : List StepmaniaAttackModifier
  deriving DecidableEq, Repr

/-- `StepmaniaNote` from `stepmania.rs`. -/
structure StepmaniaNote where
  note_type : StepmaniaNoteType
  keysound : Option Nat
  actions : List StepmaniaNoteAttack
  deriving DecidableEq, Repr

/-- `StepmaniaNoteData`: `column_count` is a `u8` in the source; it is only
ever assigned through a successful `u8::try_from`, so values stay below 256. -/
structure StepmaniaNoteData where
  column_count : Nat
  notes : List (List StepmaniaNote)
  deriving DecidableEq, Repr

/-- `StepmaniaChart` from `stepmania.rs`. -/
structure StepmaniaChart where
  name : Option (List Char)
  step_style : List Char
  chart_style : Option (List Char)
  credit : List Char
  difficulty : StepmaniaDifficulty
  meter : Nat
  radar_values : StepmaniaRadarValues
  data : StepmaniaNoteData
  deriving DecidableEq, Repr

/-- The `Default` chart (`StepmaniaChart { ..Default::default() }`). -/
def defaultChart : StepmaniaChart :=
  ⟨none, [], none, [], StepmaniaDifficulty.Edit, 0, ⟨0, 0, 0, 0, 0⟩, ⟨0, []⟩⟩

/-- `ChartParserState` from `stepmania.rs` (`Type` is spelled `Type'` since
`Type` is reserved in Lean). -/
inductive ChartParserState where
  | Type'
  | Credits
  | Difficulty
  | Rating
  | RadioValues
  | Notes
  | InlineKeysound
  | InlineAttack
  deriving DecidableEq, Repr

/-- `ChartParserState::next`. -/
def ChartParserState.next : ChartParserState → ChartParserState
  | ChartParserState.Type' => ChartParserState.Credits
  | ChartParserState.Credits => ChartParserState.Difficulty
  | ChartParserState.Difficulty => ChartParserState.Rating
  | ChartParserState.Rating => ChartParserState.RadioValues
  | _ => ChartParserState.Notes

/-- `StepmaniaParser::parse_to_radio_values`: returns the default radar
values, ignoring its input, and pushes no error. -/
def parse_to_radio_values (_input : UnparsedPropertyValue) : Option StepmaniaRadarValues :=
  some ⟨0, 0, 0, 0, 0⟩

/-- Scanning state of `parse_to_chart`. -/
structure ChartSt where
  state : ChartParserState
  startIdx : Nat
  line : Nat
  col : Nat
  chart : StepmaniaChart
  currentBeatNotes : List StepmaniaNote
  errors : List ParseError
  deriving DecidableEq, Repr

/-- One step of the `parse_to_chart` loop on character `c` at position `idx`.
The metadata layer captures `raw.chars().skip(start_idx).take(idx)` (the
source's own slicing) at each `:`; the `Notes` layer accumulates note cells,
fixes `column_count` at a line break ending the first non-empty row (only
when the row's cell count fits `u8`), and enters the inline sub-states on
`{` and `[`. -/
def chartStep (raw : List Char) (st : ChartSt) (idx : Nat) (c : Char) : ChartSt :=
  match st.state with
  | ChartParserState.Type' | ChartParserState.Credits | ChartParserState.Difficulty
  | ChartParserState.Rating | ChartParserState.RadioValues =>
    if c ≠ ':' then
      if c = '\n' then { st with col := 1, line := st.line + 1 }
      else { st with col := st.col + 1 }
    else
      let str := trimChars ((raw.drop st.startIdx).take idx)
      let st1 :=
        match st.state with
        | ChartParserState.Type' => { st with chart := { st.chart with step_style := str } }
        | ChartParserState.Credits => { st with chart := { st.chart with credit := str } }
        | ChartParserState.Difficulty =>
          { st with chart := { st.chart with difficulty := StepmaniaDifficulty.from_str str } }
        | ChartParserState.Rating =>
          match parseU16 str with
          | some rating => { st with chart := { st.chart with meter := rating } }
          | none =>
            { st with
              errors := st.errors ++
                [(⟨ParseErrorCode.StepmaniaInvalidNumber, st.line, st.col, str.length⟩ :
                  ParseError)] }
        | ChartParserState.RadioValues =>
          match parse_to_radio_values ⟨str, st.line, st.col, str.length⟩ with
          | some val => { st with chart := { st.chart with radar_values := val } }
          | none => st
        | _ => st
      { st1 with col := st1.col + 1, startIdx := idx + 1, state := st1.state.next }
  | ChartParserState.InlineAttack =>
    if c = '}' then { st with state := ChartParserState.Notes }
    else st
  | ChartParserState.InlineKeysound =>
    if c = ']' then { st with state := ChartParserState.Notes, col := st.col + 1 }
    else st
  | ChartParserState.Notes =>
    if c = '{' then { st with state := ChartParserState.InlineAttack, col := st.col + 1 }
    else if c = '[' then { st with state := ChartParserState.InlineKeysound, col := st.col + 1 }
    else if c = ',' then
      { st with
        chart := { st.chart with
          data := { st.chart.data with notes := st.chart.data.notes ++ [st.currentBeatNotes] } },
        currentBeatNotes := [], col := st.col + 1 }
    else if c = '0' ∨ c = '1' ∨ c = '2' ∨ c = '4' ∨ c = '3' ∨
        c = 'M' ∨ c = 'K' ∨ c = 'L' ∨ c = 'F' then
      { st with
        currentBeatNotes := st.currentBeatNotes ++ [⟨StepmaniaNoteType.from_char c, none, []⟩],
        col := st.col + 1 }
    else if c = '\n' then
      let st1 :=
        if st.chart.data.column_count = 0 ∧ st.currentBeatNotes.length > 0 then
          if st.currentBeatNotes.length ≤ 255 then
            { st with
              chart := { st.chart with
                data := { st.chart.data with column_count := st.currentBeatNotes.length } } }
          else st
        else st
      { st1 with col := 1, line := st1.line + 1 }
    else { st with col := st.col + 1 }

/-- The enumerated character loop of `parse_to_chart`. -/
def chartLoop (raw : List Char) : ChartSt → Nat → List Char → ChartSt
  | st, _, [] => st
  | st, idx, c :: cs => chartLoop raw (chartStep raw st idx c) (idx + 1) cs

/-- `StepmaniaParser::parse_to_chart`: metadata fields up to the fifth `:`,
then the note grid; a non-empty in-progress row is flushed at end of input.
Always returns `some` chart; the second component is the errors pushed. -/
def parse_to_chart (input : UnparsedPropertyValue) :
    Option StepmaniaChart × List ParseError :=
  let fin := chartLoop input.raw
    ⟨ChartParserState.Type', 0, input.line, input.column, defaultChart, [], []⟩ 0 input.raw
  let fin2 :=
    if fin.currentBeatNotes.length > 0 then
      { fin with
        chart := { fin.chart with
          data := { fin.chart.data with notes := fin.chart.data.notes ++ [fin.currentBeatNotes] } } }
    else fin
  (some fin2.chart, fin2.errors)

/-- One complete `#NAME:VALUE;` property unit (the glossary's "Property"). -/
structure PropUnit where
  name : List Char
  val : List Char
  deriving DecidableEq, Repr

/-- Well-formedness of a property unit: a non-empty ASCII name free of
whitespace and `:` (so the lexer raises no name diagnostics), and a value free
of `:` and `;` (so the value closes exactly at its `;`). The ASCII bound keeps
the name inside the region where the embedding's per-character case folding
coincides with the source's `String::to_lowercase` (full Unicode case folding
lies outside this embedding, as floating point does). -/
def wfUnit (u : PropUnit) : Prop :=
  u.name ≠ [] ∧
    (∀ c ∈ u.name, rustIsWhitespace c = false ∧ c ≠ ':' ∧ c.toNat ≤ 127) ∧
    ∀ c ∈ u.val, c ≠ ':' ∧ c ≠ ';'

instance (u : PropUnit) : Decidable (wfUnit u) := by
  unfold wfUnit; infer_instance

/-- Source text of one property unit. -/
def renderUnit (u : PropUnit) : List Char :=
  '#' :: (u.name ++ ':' :: (u.val ++ [';']))

/-- Source text of a list of property units, concatenated. -/
def renderUnits : List PropUnit → List Char
  | [] => []
  | u :: us => renderUnit u ++ renderUnits us

/-- The case-folded name of a unit, as the lexer stores it. -/
def lowerName (u : PropUnit) : List Char :=
  u.name.map Char.toLower

/-- The value of the last unit carrying the given case-folded name. -/
def lastVal (us : List PropUnit) (k : List Char) : Option (List Char) :=
  (us.reverse.find? (fun u => decide (lowerName u = k))).map (·.val)

/-- One `DuplicatePropertyName` code per unit whose case-folded name was
already seen. -/
def dupMarks (seen : List (List Char)) : List PropUnit → List ParseErrorCode
  | [] => []
  | u :: us =>
    (if lowerName u ∈ seen then [ParseErrorCode.StepmaniaDuplicatePropertyName] else []) ++
      dupMarks (lowerName u :: seen) us

/-- One attack in the `time=..:end|len=..:mods=..` source form. -/
structure AttackTriple where
  t : List Char
  k : List Char
  d : List Char
  m : List Char
  deriving DecidableEq, Repr

/-- Source text of one attack triple. -/
def renderTriple (tr : AttackTriple) : List Char :=
  "time=".toList ++ tr.t ++ ':' :: (tr.k ++ '=' :: (tr.d ++ ':' :: ("mods=".toList ++ tr.m)))

/-- Source text of a list of attack triples, `:`-separated (the grammar has
no outer terminator, so nothing follows the last `mods` value). -/
def renderTriples : List AttackTriple → List Char
  | [] => []
  | [tr] => renderTriple tr
  | tr :: trs => renderTriple tr ++ ':' :: renderTriples trs

/-- Well-formedness of an attack triple: the value texts contain neither
separator, the slot-1 key is `end` or `len`, and both numeric texts decode. -/
def wfTriple (tr : AttackTriple) : Prop :=
  (∀ c ∈ tr.t, c ≠ ':' ∧ c ≠ '=') ∧ (∀ c ∈ tr.d, c ≠ ':' ∧ c ≠ '=') ∧
    (∀ c ∈ tr.m, c ≠ ':' ∧ c ≠ '=') ∧
    (tr.k = "end".toList ∨ tr.k = "len".toList) ∧
    (parseNumRaw tr.t PRECISION_TIME).isSome = true ∧
    (parseNumRaw tr.d PRECISION_TIME).isSome = true

instance (tr : AttackTriple) : Decidable (wfTriple tr) := by
  unfold wfTriple; infer_instance

/-- The attack record a well-formed triple decodes to: start from the `time`
value; duration taken directly from a `len` value, or as `end − start` from
an `end` value. -/
def expectAttack (tr : AttackTriple) : StepmaniaAttack :=
  let tv := (parseNumRaw tr.t PRECISION_TIME).getD 0
  let dv := (parseNumRaw tr.d PRECISION_TIME).getD 0
  ⟨tv, if tr.k = "len".toList then dv else dv - tv, []⟩

/-! ### Character-class and list lemmas -/

theorem not_ws_of_digit (c : Char) (h : c.isDigit = true) : rustIsWhitespace c = false := by
  have hd : 48 ≤ c.toNat ∧ c.toNat ≤ 57 := by
    simp [Char.isDigit] at h
    exact ⟨h.1, h.2⟩
  simp only [rustIsWhitespace, decide_eq_false_iff_not]
  intro hw
  rcases hw with h1 | h1 | h1 | h1 | h1 | h1 | h1 | h1 | h1 | h1 | h1
  · have : c.toNat ≤ 13 := h1.2
    omega
  all_goals first
  | (subst h1; simp at h)
  | (have h2 : c.toNat ≤ 8202 := h1.2
     have h3 : 8192 ≤ c.toNat := h1.1
     omega)

theorem digit_ne_dot (c : Char) (h : c.isDigit = true) : c ≠ '.' := by
  intro he
  subst he
  simp at h

theorem digit_ne_plus (c : Char) (h : c.isDigit = true) : c ≠ '+' := by
  intro he
  subst he
  simp at h

theorem digit_ne_minus (c : Char) (h : c.isDigit = true) : c ≠ '-' := by
  intro he
  subst he
  simp at h

theorem dropWhile_eq_self_of (p : Char → Bool) (l : List Char)
    (h : ∀ c ∈ l, p c = false) : l.dropWhile p = l := by
  cases l with
  | nil => rfl
  | cons a t => rw [List.dropWhile_cons]; simp [h a (by simp)]

theorem trimChars_eq_self_of (l : List Char)
    (h : ∀ c ∈ l, rustIsWhitespace c = false) : trimChars l = l := by
  unfold trimChars
  rw [dropWhile_eq_self_of _ _ h, dropWhile_eq_self_of, List.reverse_reverse]
  intro c hc
  exact h c (List.mem_reverse.mp hc)

theorem findIdx?_none_of (p : Char → Bool) (l : List Char) (i : Nat)
    (h : ∀ c ∈ l, p c = false) : List.findIdx? p l i = none := by
  induction l generalizing i with
  | nil => rfl
  | cons a t ih =>
    simp only [List.findIdx?, h a (by simp)]
    exact ih (i + 1) (fun c hc => h c (by simp [hc]))

theorem findIdx?_append_at (p : Char → Bool) (ds : List Char) (a : Char) (t : List Char)
    (i : Nat) (h : ∀ c ∈ ds, p c = false) (hp : p a = true) :
    List.findIdx? p (ds ++ a :: t) i = some (i + ds.length) := by
  induction ds generalizing i with
  | nil => simp [List.findIdx?, hp]
  | cons b bs ih =>
    have hpb : p b = false := h b (by simp)
    rw [List.cons_append]
    rw [show List.findIdx? p (b :: (bs ++ a :: t)) i =
      if p b = true then some i else List.findIdx? p (bs ++ a :: t) (i + 1) from rfl]
    rw [hpb]
    simp only [Bool.false_eq_true, if_false]
    rw [ih (i + 1) (fun c hc => h c (by simp [hc]))]
    simp only [List.length_cons, Option.some.injEq]
    omega

theorem eraseIdx_append_len (l₁ : List Char) (a : Char) (l₂ : List Char) :
    (l₁ ++ a :: l₂).eraseIdx l₁.length = l₁ ++ l₂ := by
  induction l₁ with
  | nil => rfl
  | cons b t ih => simp [List.eraseIdx, ih]

theorem digitsToNat_go (l : List Char) (n : Nat) :
    l.foldl (fun acc c => acc * 10 + (c.toNat - '0'.toNat)) n =
      n * 10 ^ l.length + digitsToNat l := by
  induction l generalizing n with
  | nil => simp [digitsToNat]
  | cons c t ih =>
    show t.foldl _ (n * 10 + (c.toNat - '0'.toNat)) = _
    rw [ih]
    have h2 : digitsToNat (c :: t) =
        (c.toNat - '0'.toNat) * 10 ^ t.length + digitsToNat t := by
      show t.foldl _ (0 * 10 + (c.toNat - '0'.toNat)) = _
      rw [ih]
      ring_nf
    rw [h2]
    simp [List.length_cons]
    ring

theorem digitsToNat_append (l₁ l₂ : List Char) :
    digitsToNat (l₁ ++ l₂) = digitsToNat l₁ * 10 ^ l₂.length + digitsToNat l₂ := by
  unfold digitsToNat
  rw [List.foldl_append]
  exact digitsToNat_go l₂ _

theorem digitsToNat_replicate_zero (p : Nat) :
    digitsToNat (List.replicate p '0') = 0 := by
  induction p with
  | zero => rfl
  | succ n ih =>
    rw [List.replicate_succ]
    show List.foldl _ (0 * 10 + ('0'.toNat - '0'.toNat)) _ = 0
    simpa [digitsToNat] using ih

theorem parseI64_digits (l : List Char) (hne : l ≠ [])
    (h : ∀ c ∈ l, c.isDigit = true)
    (hb : digitsToNat l ≤ 2 ^ 63 - 1) : parseI64 l = some (digitsToNat l) := by
  obtain ⟨a, t, rfl⟩ := List.exists_cons_of_ne_nil hne
  have ha : a.isDigit = true := h a (by simp)
  simp only [parseI64, digit_ne_plus a ha, digit_ne_minus a ha, if_false]
  have hall : (a :: t).all Char.isDigit = true := List.all_eq_true.mpr h
  simp only [parseI64core, List.isEmpty_cons, Bool.false_eq_true, if_false, hall, if_true]
  split
  · simp
  · next hcond =>
    exfalso
    apply hcond
    constructor
    · have : (0 : Int) ≤ (digitsToNat (a :: t) : Int) := Int.ofNat_nonneg _
      omega
    · have : (digitsToNat (a :: t) : Int) ≤ ((2 ^ 63 - 1 : Nat) : Int) := by
        exact_mod_cast hb
      push_cast at this
      omega

theorem parseNumRaw_integer (raw : List Char) (p : Nat) (ds : List Char)
    (htrim : trimChars raw = ds) (hne : ds ≠ []) (hdig : ∀ c ∈ ds, c.isDigit = true)
    (hb : digitsToNat ds * 10 ^ p ≤ 2 ^ 63 - 1) :
    parseNumRaw raw p = some ((digitsToNat ds * 10 ^ p : Nat) : Int) := by
  have hfind : List.findIdx? (fun c => decide (c = '.')) ds 0 = none :=
    findIdx?_none_of _ _ _ (fun c hc => decide_eq_false (digit_ne_dot c (hdig c hc)))
  have hall : ∀ c ∈ ds ++ List.replicate p '0', c.isDigit = true := by
    intro c hc
    rcases List.mem_append.mp hc with h | h
    · exact hdig c h
    · rw [List.eq_of_mem_replicate h]; decide
  have htr : trimChars (ds ++ List.replicate p '0') = ds ++ List.replicate p '0' :=
    trimChars_eq_self_of _ (fun c hc => not_ws_of_digit c (hall c hc))
  have hval : digitsToNat (ds ++ List.replicate p '0') = digitsToNat ds * 10 ^ p := by
    rw [digitsToNat_append, digitsToNat_replicate_zero, List.length_replicate]
    ring
  have hne2 : ds ++ List.replicate p '0' ≠ [] := by
    intro he
    rw [List.append_eq_nil] at he
    exact hne he.1
  simp only [parseNumRaw, htrim, hfind]
  rw [htr, parseI64_digits _ hne2 hall (by rw [hval]; exact hb), hval]
  rfl

theorem parseNumRaw_fraction (raw : List Char) (p : Nat) (ds fs : List Char)
    (htrim : trimChars raw = ds ++ '.' :: fs) (hne : ds ≠ [])
    (hd : ∀ c ∈ ds, c.isDigit = true) (hf : ∀ c ∈ fs, c.isDigit = true)
    (hb : digitsToNat ds * 10 ^ p + digitsToNat ((fs ++ List.replicate p '0').take p) ≤
      2 ^ 63 - 1) :
    parseNumRaw raw p =
      some ((digitsToNat ds * 10 ^ p +
        digitsToNat ((fs ++ List.replicate p '0').take p) : Nat) : Int) := by
  have hfind : List.findIdx? (fun c => decide (c = '.')) (ds ++ '.' :: fs) 0 =
      some (0 + ds.length) :=
    findIdx?_append_at _ _ _ _ _
      (fun c hc => decide_eq_false (digit_ne_dot c (hd c hc))) (by simp)
  have hassoc : (ds ++ '.' :: fs) ++ List.replicate p '0' =
      ds ++ '.' :: (fs ++ List.replicate p '0') := by simp
  have herase : (ds ++ '.' :: (fs ++ List.replicate p '0')).eraseIdx ds.length =
      ds ++ (fs ++ List.replicate p '0') := eraseIdx_append_len _ _ _
  have htake : (ds ++ (fs ++ List.replicate p '0')).take (ds.length + p) =
      ds ++ (fs ++ List.replicate p '0').take p := List.take_append p
  have hallp : ∀ c ∈ fs ++ List.replicate p '0', c.isDigit = true := by
    intro c hc
    rcases List.mem_append.mp hc with h | h
    · exact hf c h
    · rw [List.eq_of_mem_replicate h]; decide
  have hall : ∀ c ∈ ds ++ (fs ++ List.replicate p '0').take p, c.isDigit = true := by
    intro c hc
    rcases List.mem_append.mp hc with h | h
    · exact hd c h
    · exact hallp c (List.take_subset _ _ h)
  have htklen : ((fs ++ List.replicate p '0').take p).length = p := by
    rw [List.length_take, List.length_append, List.length_replicate]
    omega
  have hval : digitsToNat (ds ++ (fs ++ List.replicate p '0').take p) =
      digitsToNat ds * 10 ^ p + digitsToNat ((fs ++ List.replicate p '0').take p) := by
    rw [digitsToNat_append, htklen]
  have hne2 : ds ++ (fs ++ List.replicate p '0').take p ≠ [] := by
    intro he
    rw [List.append_eq_nil] at he
    exact hne he.1
  have htr : trimChars (ds ++ (fs ++ List.replicate p '0').take p) =
      ds ++ (fs ++ List.replicate p '0').take p :=
    trimChars_eq_self_of _ (fun c hc => not_ws_of_digit c (hall c hc))
  simp only [parseNumRaw, htrim, hfind, Nat.zero_add, hassoc, herase, htake]
  rw [htr, parseI64_digits _ hne2 hall (by rw [hval]; exact hb), hval]
  rfl

/-- C1: for a span whose trimmed text is a decimal numeral (with or without a
fractional part), `parse_to_number` returns the numeral's value scaled by
`10^precision`, truncating (not rounding) fractional digits beyond the
precision and zero-padding missing ones, with no diagnostic — provided the
scaled value fits in an i64 (the amendment the i64 range forces); in
particular `"1.333"`, `"83"`, `"66.6668423"` at precision 3 give `1333`,
`83000`, `66666`. -/
theorem c1_parse_to_number_scaled :
    (∀ (v : UnparsedPropertyValue) (p : Nat) (ds : List Char),
      trimChars v.raw = ds → ds ≠ [] → (∀ c ∈ ds, c.isDigit = true) →
      digitsToNat ds * 10 ^ p ≤ 2 ^ 63 - 1 →
      parse_to_number v p = (some ((digitsToNat ds * 10 ^ p : Nat) : Int), [])) ∧
    (∀ (v : UnparsedPropertyValue) (p : Nat) (ds fs : List Char),
      trimChars v.raw = ds ++ '.' :: fs → ds ≠ [] →
      (∀ c ∈ ds, c.isDigit = true) → (∀ c ∈ fs, c.isDigit = true) →
      digitsToNat ds * 10 ^ p + digitsToNat ((fs ++ List.replicate p '0').take p) ≤
        2 ^ 63 - 1 →
      parse_to_number v p =
        (some ((digitsToNat ds * 10 ^ p +
          digitsToNat ((fs ++ List.replicate p '0').take p) : Nat) : Int), [])) ∧
    parse_to_number ⟨"1.333".toList, 1, 0, 5⟩ 3 = (some 1333, []) ∧
    parse_to_number ⟨"83".toList, 1, 0, 2⟩ 3 = (some 83000, []) ∧
    parse_to_number ⟨"66.6668423".toList, 1, 0, 10⟩ 3 = (some 66666, []) := by
  refine ⟨?_, ?_, by decide, by decide, by decide⟩
  · intro v p ds htrim hne hdig hb
    simp [parse_to_number, parseNumRaw_integer v.raw p ds htrim hne hdig hb]
  · intro v p ds fs htrim hne hd hf hb
    simp [parse_to_number, parseNumRaw_fraction v.raw p ds fs htrim hne hd hf hb]

/-- Witness for C1: the fractional clause applied at `"12.75"` with
precision 2, and the integer clause at `"7"` with precision 3. -/
theorem c1_witness :
    parse_to_number ⟨"12.75".toList, 1, 0, 5⟩ 2 = (some 1275, []) ∧
    parse_to_number ⟨"7".toList, 1, 0, 1⟩ 3 = (some 7000, []) := by
  constructor
  · have h := c1_parse_to_number_scaled.2.1 ⟨"12.75".toList, 1, 0, 5⟩ 2
      ['1', '2'] ['7', '5'] (by decide) (by decide) (by decide) (by decide) (by decide)
    simpa using h
  · have h := c1_parse_to_number_scaled.1 ⟨"7".toList, 1, 0, 1⟩ 3
      ['7'] (by decide) (by decide) (by decide) (by decide)
    simpa using h

/-- Counterexample to C1 as stated: `"83"` is a decimal numeral, but at
precision 20 the scaled value `83 * 10^20` exceeds the i64 range, so
`parse_to_number` returns no value (and an `InvalidNumber` diagnostic)
instead of the scaled integer. -/
theorem c1_counterexample :
    (∀ c ∈ trimChars ("83".toList), c.isDigit = true) ∧
    (parse_to_number ⟨"83".toList, 1, 0, 2⟩ 20).1 = none ∧
    (parse_to_number ⟨"83".toList, 1, 0, 2⟩ 20).1 ≠ some ((83 : Int) * 10 ^ 20) := by
  refine ⟨by decide, by decide, by decide⟩

/-- C2: the claim says an input ending mid-value yields exactly one
`ExpectedValueEnd` diagnostic in the returned diagnostics list; the code
instead only opens the diagnostic in the transient `latest_errors` map
(`create_and_push_error`) and no `cleanup_error` call ever flushes it, so the
returned `errors` list is empty.  The property-map half of the claim (no
entry for the unterminated property) does hold.  Evaluated at `"#TITLE:abc"`. -/
theorem c2_unterminated_value_no_diagnostic :
    (parse_to_property_map "#TITLE:abc".toList).errors = [] ∧
    assocFind (parse_to_property_map "#TITLE:abc".toList).map "title".toList = none ∧
    leContains (parse_to_property_map "#TITLE:abc".toList).latestErrors
      ParseErrorCode.StepmaniaExpectedValueEnd = true := by
  decide

/-- C4: the claim says a well-formed non-empty trailing group without a
terminating `,` is included and trailing empty groups are dropped; the code's
final flush is guarded by `has_latest`, which only an `=` separator sets, so
with field-splitting disabled (`"a,b"`) — or with it enabled but no `=` in
the tail (`"a=b,c"`) — the trailing group is lost, and `"a,,"` keeps an empty
group produced by the consecutive commas. -/
theorem c4_trailing_group_behaviour :
    (parse_to_value_entries ⟨"a,b".toList, 1, 0, 3⟩ false).map (·.map (·.raw)) =
      [["a".toList]] ∧
    (parse_to_value_entries ⟨"a,,".toList, 1, 0, 3⟩ false).map (·.map (·.raw)) =
      [["a".toList], []] ∧
    (parse_to_value_entries ⟨"a=b,c".toList, 1, 0, 5⟩ true).map (·.map (·.raw)) =
      [["a".toList, "b".toList]] ∧
    (parse_to_value_entries ⟨"a=b,c=d".toList, 1, 0, 7⟩ true).map (·.map (·.raw)) =
      [["a".toList, "b".toList], ["c".toList, "d".toList]] := by
  decide

/-- C5: per-group arity handling of `parse_value_group` (whose loop body is
`groupBody`, folded over the splitter's output): a group below `min` is
skipped with no diagnostic and no record; a group in `[min, max)` gets
exactly one `InvalidValueCount` diagnostic and is still passed to the mapper;
a group at or above `max` is passed to the mapper with no `InvalidValueCount`
diagnostic. -/
theorem c5_parse_value_group_arity {T : Type} :
    (∀ (min max : Nat)
      (mapper : List UnparsedPropertyValue → Option (Option T × List ParseError))
      (acc : List T × List ParseError) (group : List UnparsedPropertyValue),
      group.length < min → groupBody min max mapper acc group = some acc) ∧
    (∀ (min max : Nat)
      (mapper : List UnparsedPropertyValue → Option (Option T × List ParseError))
      (acc : List T × List ParseError) (first : UnparsedPropertyValue)
      (rest : List UnparsedPropertyValue),
      min ≤ (first :: rest).length → (first :: rest).length < max →
      groupBody min max mapper acc (first :: rest) =
        (mapper (first :: rest)).map (fun r =>
          (acc.1 ++ r.1.toList,
           acc.2 ++
             [⟨ParseErrorCode.StepmaniaInvalidValueCount, first.line, first.column,
               ((first :: rest).length - 1) + ((first :: rest).map (·.len)).sum⟩] ++
             r.2))) ∧
    (∀ (min max : Nat)
      (mapper : List UnparsedPropertyValue → Option (Option T × List ParseError))
      (acc : List T × List ParseError) (group : List UnparsedPropertyValue),
      min ≤ group.length → max ≤ group.length →
      groupBody min max mapper acc group =
        (mapper group).map (fun r => (acc.1 ++ r.1.toList, acc.2 ++ r.2))) ∧
    (∀ (value : UnparsedPropertyValue) (min max : Nat)
      (mapper : List UnparsedPropertyValue → Option (Option T × List ParseError)),
      parse_value_group value min max mapper =
        (parse_to_value_entries value true).foldlM (groupBody min max mapper) ([], [])) := by
  refine ⟨?_, ?_, ?_, ?_⟩
  · intro min max mapper acc group h
    simp [groupBody, h]
  · intro min max mapper acc first rest hmin hmax
    have h1 : ¬((first :: rest).length < min) := by omega
    simp only [groupBody, h1, if_false, hmax, if_true, add_value_count_error, Option.map_some]
    cases hm : mapper (first :: rest) with
    | none => rfl
    | some r => rfl
  · intro min max mapper acc group hmin hmax
    have h1 : ¬(group.length < min) := by omega
    have h2 : ¬(group.length < max) := by omega
    simp only [groupBody, h1, if_false, h2, if_true]
    cases hm : mapper group with
    | none => rfl
    | some r => simp
  · intro value min max mapper
    rfl

/-- Witness for C5: the three arity cases at concrete groups, with a mapper
returning the group's field count. -/
theorem c5_witness :
    groupBody 2 4 (fun g => some (some g.length, []))
      (([], []) : List Nat × List ParseError) [⟨"x".toList, 1, 0, 1⟩] = some ([], []) ∧
    groupBody 2 4 (fun g => some (some g.length, []))
      (([], []) : List Nat × List ParseError) [⟨"x".toList, 1, 2, 1⟩, ⟨"y".toList, 1, 4, 1⟩] =
      some ([2], [⟨ParseErrorCode.StepmaniaInvalidValueCount, 1, 2, 3⟩]) ∧
    groupBody 2 2 (fun g => some (some g.length, []))
      (([], []) : List Nat × List ParseError) [⟨"x".toList, 1, 2, 1⟩, ⟨"y".toList, 1, 4, 1⟩] =
      some ([2], []) := by
  refine ⟨?_, ?_, ?_⟩
  · exact c5_parse_value_group_arity.1 2 4 _ ([], []) [⟨"x".toList, 1, 0, 1⟩] (by decide)
  · exact (c5_parse_value_group_arity.2.1 2 4 _ ([], []) ⟨"x".toList, 1, 2, 1⟩
      [⟨"y".toList, 1, 4, 1⟩] (by decide) (by decide)).trans (by decide)
  · exact (c5_parse_value_group_arity.2.2.1 2 2 _ ([], [])
      [⟨"x".toList, 1, 2, 1⟩, ⟨"y".toList, 1, 4, 1⟩] (by decide) (by decide)).trans (by decide)

theorem groupBody_itrack_isSome (acc : List StepmaniaInstrumentTrack × List ParseError)
    (g : List UnparsedPropertyValue) :
    (groupBody 2 2 parse_to_instrument_track acc g).isSome = true := by
  by_cases h : g.length < 2
  · simp [groupBody, h]
  · rcases g with _ | ⟨g0, _ | ⟨g1, rest⟩⟩
    · simp at h
    · simp at h
    · simp [groupBody, parse_to_instrument_track,
        show ¬(rest.length + 1 + 1 < 2) by omega]

theorem foldlM_groupBody_itrack_isSome (gs : List (List UnparsedPropertyValue))
    (acc : List StepmaniaInstrumentTrack × List ParseError) :
    (gs.foldlM (groupBody 2 2 parse_to_instrument_track) acc).isSome = true := by
  induction gs generalizing acc with
  | nil => rfl
  | cons g gs ih =>
    rw [List.foldlM_cons]
    have h := groupBody_itrack_isSome acc g
    cases hg : groupBody 2 2 parse_to_instrument_track acc g with
    | none => rw [hg] at h; simp at h
    | some acc2 => simpa [hg] using ih acc2

/-- C9: every group that `parse_value_group` with `min = max = 2` hands to
`parse_to_instrument_track` has at least two fields, so the `unwrap`s on
fields 0 and 1 cannot panic (`parse_value_group` never returns the
panic-marker `none`), and on any group with at least two fields the mapper
returns a record whose two fields are the whitespace-trimmed raws. -/
theorem c9_instrument_track_safe :
    (∀ (value : UnparsedPropertyValue),
      (parse_value_group value 2 2 parse_to_instrument_track).isSome = true) ∧
    (∀ (g0 g1 : UnparsedPropertyValue) (rest : List UnparsedPropertyValue),
      parse_to_instrument_track (g0 :: g1 :: rest) =
        some (some ⟨trimChars g0.raw, trimChars g1.raw⟩, [])) := by
  constructor
  · intro value
    exact foldlM_groupBody_itrack_isSome _ _
  · intro g0 g1 rest
    rfl

/-- Witness for C9: the splitter output of `"guitar=g.ogg,drums= d.mp3"` is
decoded without panic into two trimmed records. -/
theorem c9_witness :
    (parse_value_group ⟨"guitar=g.ogg,drums= d.mp3".toList, 1, 0, 25⟩ 2 2
      parse_to_instrument_track).isSome = true ∧
    parse_to_instrument_track
      [⟨" a ".toList, 1, 0, 3⟩, ⟨" b".toList, 1, 4, 2⟩] =
      some (some ⟨"a".toList, "b".toList⟩, []) := by
  constructor
  · exact c9_instrument_track_safe.1 ⟨"guitar=g.ogg,drums= d.mp3".toList, 1, 0, 25⟩
  · exact (c9_instrument_track_safe.2 ⟨" a ".toList, 1, 0, 3⟩ ⟨" b".toList, 1, 4, 2⟩
      []).trans (by decide)

theorem colorLoop_no_sep (raw : List Char) (st : ColorSt) (pos : Nat) (cs : List Char)
    (h : ∀ c ∈ cs, c ≠ '^') :
    (colorLoop raw st pos cs).startPos = st.startPos ∧
    (colorLoop raw st pos cs).color = st.color ∧
    (colorLoop raw st pos cs).errors = st.errors := by
  induction cs generalizing st pos with
  | nil => exact ⟨rfl, rfl, rfl⟩
  | cons c cs ih =>
    have hc : c ≠ '^' := h c (by simp)
    have hstep : (colorStep raw st pos c).startPos = st.startPos ∧
        (colorStep raw st pos c).color = st.color ∧
        (colorStep raw st pos c).errors = st.errors := by
      simp only [colorStep, hc]
      by_cases hn : c = '\n' <;> simp [hn, hc]
    have ht := ih (colorStep raw st pos c) (pos + 1) (fun c hc => h c (by simp [hc]))
    have hrec : colorLoop raw st pos (c :: cs) =
        colorLoop raw (colorStep raw st pos c) (pos + 1) cs := rfl
    rw [hrec, ht.1, ht.2.1, ht.2.2, hstep.1, hstep.2.1, hstep.2.2]
    exact ⟨rfl, rfl, rfl⟩

/-- C10: a value span containing no `^` decodes no channel at all:
`parse_to_color` returns the all-default colour `{0,0,0,255}` and emits no
diagnostic, even when the whole text is a single valid channel value. -/
theorem c10_color_no_separator (v : UnparsedPropertyValue)
    (h : ∀ c ∈ v.raw, c ≠ '^') :
    parse_to_color v = (defaultColor, []) := by
  have hfin := colorLoop_no_sep v.raw ⟨0, v.line, v.column, defaultColor, 0, []⟩ 0 v.raw h
  simp only [parse_to_color, hfin.1, hfin.2.1, hfin.2.2, gt_iff_lt, Nat.lt_irrefl, if_false]

/-- Witness for C10: the single valid channel text `"0.5"`. -/
theorem c10_witness :
    parse_to_color ⟨"0.5".toList, 1, 0, 3⟩ = (defaultColor, []) :=
  c10_color_no_separator ⟨"0.5".toList, 1, 0, 3⟩ (by decide)

/-- C8, amended: once `column_count` is non-zero no scanning step changes it;
a line break in the `Notes` state that ends the first non-empty row fixes
`column_count` to that row's cell count provided the count fits the `u8`
field (at most 255); and a 4-cell first row concretely fixes
`column_count = 4`.  (A first row wider than 255 cells leaves `column_count`
at 0 — the `u8::try_from` error branch does nothing — so a later row may then
fix it; see the counterexample.) -/
theorem c8_column_count_fixed :
    (∀ (raw : List Char) (st : ChartSt) (idx : Nat) (c : Char),
      st.chart.data.column_count ≠ 0 →
      (chartStep raw st idx c).chart.data.column_count = st.chart.data.column_count) ∧
    (∀ (raw : List Char) (st : ChartSt) (idx : Nat),
      st.state = ChartParserState.Notes → st.chart.data.column_count = 0 →
      st.currentBeatNotes ≠ [] → st.currentBeatNotes.length ≤ 255 →
      (chartStep raw st idx '\n').chart.data.column_count = st.currentBeatNotes.length) ∧
    ((parse_to_chart ⟨"a:b:c:1:r:1011\n0000\n".toList, 1, 0, 20⟩).1.map
      (fun ch => ch.data.column_count)) = some 4 := by
  refine ⟨?_, ?_, ?_⟩
  · intro raw st idx c h
    obtain ⟨s, si, ln, cl, ch, cb, er⟩ := st
    simp only at h
    cases s <;> simp only [chartStep] <;> (repeat' split) <;> simp_all
  · intro raw st idx hs h0 hne hle
    obtain ⟨s, si, ln, cl, ch, cb, er⟩ := st
    simp only at hs h0 hne hle
    subst hs
    have hlen : cb.length > 0 := List.length_pos.mpr hne
    simp only [chartStep,
      show ¬(('\n' : Char) = '{') by decide, if_false,
      show ¬(('\n' : Char) = '[') by decide, if_false,
      show ¬(('\n' : Char) = ',') by decide, if_false,
      show ¬(('\n' : Char) = '0' ∨ ('\n' : Char) = '1' ∨ ('\n' : Char) = '2' ∨
        ('\n' : Char) = '4' ∨ ('\n' : Char) = '3' ∨ ('\n' : Char) = 'M' ∨
        ('\n' : Char) = 'K' ∨ ('\n' : Char) = 'L' ∨ ('\n' : Char) = 'F') by decide, if_false,
      if_pos rfl, h0, hlen, true_and, if_true, hle]
  · decide

/-- Witness for C8: the line-break clause applied at a concrete `Notes`-state
scanner holding a 4-cell row. -/
theorem c8_witness :
    (chartStep [] ⟨ChartParserState.Notes, 0, 1, 1, defaultChart,
      [⟨StepmaniaNoteType.Tap, none, []⟩, ⟨StepmaniaNoteType.Tap, none, []⟩,
       ⟨StepmaniaNoteType.Tap, none, []⟩, ⟨StepmaniaNoteType.Tap, none, []⟩], []⟩
      0 '\n').chart.data.column_count = 4 := by
  exact (c8_column_count_fixed.2.1 [] ⟨ChartParserState.Notes, 0, 1, 1, defaultChart,
    [⟨StepmaniaNoteType.Tap, none, []⟩, ⟨StepmaniaNoteType.Tap, none, []⟩,
     ⟨StepmaniaNoteType.Tap, none, []⟩, ⟨StepmaniaNoteType.Tap, none, []⟩], []⟩
    0 rfl rfl (by decide) (by decide)).trans (by decide)

set_option maxRecDepth 40000 in
/-- Counterexample to C8 as stated: a first non-empty grid row of 256 cells
is wider than the `u8` field, so the line break ending it does NOT fix
`column_count` (the `try_from` error branch does nothing); after a `,` clears
the row, a later 4-cell row fixes `column_count = 4 ≠ 256`. -/
theorem c8_counterexample :
    ((parse_to_chart ⟨":::::".toList ++ List.replicate 256 '1' ++ "\n,1111\n".toList,
      1, 0, 268⟩).1.map (fun ch => ch.data.column_count)) = some 4 ∧ (4 : Nat) ≠ 256 := by
  constructor
  · decide
  · decide

/-! ### Association-map and option lemmas -/

theorem option_or_none {α : Type} (x : Option α) : x.or none = x := by
  cases x <;> rfl

theorem option_or_assoc {α : Type} (x y z : Option α) :
    (x.or y).or z = x.or (y.or z) := by
  cases x <;> rfl

theorem find?_append_or (p : List Char × UnparsedPropertyValue → Bool)
    (l₁ l₂ : List (List Char × UnparsedPropertyValue)) :
    (l₁ ++ l₂).find? p = (l₁.find? p).or (l₂.find? p) := by
  induction l₁ with
  | nil => rfl
  | cons a t ih =>
    rw [List.cons_append, List.find?_cons, List.find?_cons]
    by_cases h : p a <;> simp [h, ih]

theorem findUnit_append_or (p : PropUnit → Bool) (l₁ l₂ : List PropUnit) :
    (l₁ ++ l₂).find? p = (l₁.find? p).or (l₂.find? p) := by
  induction l₁ with
  | nil => rfl
  | cons a t ih =>
    rw [List.cons_append, List.find?_cons, List.find?_cons]
    by_cases h : p a <;> simp [h, ih]

theorem find?_replace_ne (m : List (List Char × UnparsedPropertyValue))
    (k : List Char) (v : UnparsedPropertyValue) (k' : List Char) (h : k' ≠ k) :
    (m.map (fun p => if p.1 = k then (k, v) else p)).find? (fun p => decide (p.1 = k')) =
      m.find? (fun p => decide (p.1 = k')) := by
  induction m with
  | nil => rfl
  | cons a m ih =>
    by_cases ha : a.1 = k
    · have h2 : decide (((k, v) : List Char × UnparsedPropertyValue).1 = k') = false :=
        decide_eq_false (fun he => h he.symm)
      have h3 : decide (a.1 = k') = false :=
        decide_eq_false (fun he => h (by rw [← he]; exact ha))
      simp only [List.map_cons, if_pos ha, List.find?_cons, h2, h3]
      exact ih
    · by_cases hp : a.1 = k'
      · have h4 : decide (a.1 = k') = true := decide_eq_true hp
        simp only [List.map_cons, if_neg ha, List.find?_cons, h4]
      · have h5 : decide (a.1 = k') = false := decide_eq_false hp
        simp only [List.map_cons, if_neg ha, List.find?_cons, h5]
        exact ih

theorem find?_replace_eq (m : List (List Char × UnparsedPropertyValue))
    (k : List Char) (v : UnparsedPropertyValue) (h : assocContains m k = true) :
    (m.map (fun p => if p.1 = k then (k, v) else p)).find? (fun p => decide (p.1 = k)) =
      some (k, v) := by
  induction m with
  | nil => simp [assocContains] at h
  | cons a m ih =>
    by_cases ha : a.1 = k
    · have h4 : decide (((k, v) : List Char × UnparsedPropertyValue).1 = k) = true :=
        decide_eq_true rfl
      simp only [List.map_cons, if_pos ha, List.find?_cons, h4]
      rfl
    · have h' : assocContains m k = true := by
        simp only [assocContains, List.any_cons, Bool.or_eq_true, decide_eq_true_eq] at h
        rcases h with h | h
        · exact absurd h ha
        · exact h
      have h5 : decide (a.1 = k) = false := decide_eq_false ha
      simp only [List.map_cons, if_neg ha, List.find?_cons, h5]
      exact ih h'

theorem find?_none_of_not_contains (m : List (List Char × UnparsedPropertyValue))
    (k : List Char) (h : assocContains m k = false) :
    m.find? (fun p => decide (p.1 = k)) = none := by
  rw [List.find?_eq_none]
  intro x hx hpx
  have hc : assocContains m k = true := by
    unfold assocContains
    rw [List.any_eq_true]
    exact ⟨x, hx, hpx⟩
  rw [h] at hc
  exact Bool.false_ne_true hc

theorem assocFind_insert (m : List (List Char × UnparsedPropertyValue))
    (k : List Char) (v : UnparsedPropertyValue) (k' : List Char) :
    assocFind (assocInsert m k v) k' = if k' = k then some v else assocFind m k' := by
  unfold assocInsert
  by_cases hc : assocContains m k
  · rw [if_pos hc]
    by_cases he : k' = k
    · subst he
      unfold assocFind
      rw [find?_replace_eq m k' v hc, if_pos rfl]
      rfl
    · unfold assocFind
      rw [find?_replace_ne m k v k' he, if_neg he]
  · rw [if_neg hc]
    unfold assocFind
    rw [find?_append_or]
    by_cases he : k' = k
    · subst he
      rw [find?_none_of_not_contains m k' (Bool.eq_false_iff.mpr hc)]
      have h4 : decide (((k', v) : List Char × UnparsedPropertyValue).1 = k') = true :=
        decide_eq_true rfl
      simp only [List.find?_cons, h4, List.find?_nil, if_pos rfl]
      rfl
    · have h5 : decide (((k, v) : List Char × UnparsedPropertyValue).1 = k') = false :=
        decide_eq_false (fun hh => he hh.symm)
      have h1 : (([(k, v)] : List (List Char × UnparsedPropertyValue)).find?
          (fun p => decide (p.1 = k'))) = none := by
        simp only [List.find?_cons, h5, List.find?_nil]
      rw [h1, option_or_none, if_neg he]

theorem assocContains_iff_find (m : List (List Char × UnparsedPropertyValue))
    (k : List Char) : assocContains m k = (assocFind m k).isSome := by
  induction m with
  | nil => rfl
  | cons a m ih =>
    by_cases hp : a.1 = k
    · have h4 : decide (a.1 = k) = true := decide_eq_true hp
      simp only [assocContains, List.any_cons, assocFind, List.find?_cons, h4, Bool.true_or]
      rfl
    · have h5 : decide (a.1 = k) = false := decide_eq_false hp
      simp only [assocContains, List.any_cons, assocFind, List.find?_cons, h5, Bool.false_or]
      simpa [assocFind] using ih

theorem assocContains_insert (m : List (List Char × UnparsedPropertyValue))
    (k : List Char) (v : UnparsedPropertyValue) (k' : List Char) :
    assocContains (assocInsert m k v) k' =
      (decide (k' = k) || assocContains m k') := by
  rw [assocContains_iff_find, assocFind_insert, assocContains_iff_find]
  by_cases he : k' = k <;> simp [he]

/-! ### Lexer scanning lemmas -/

theorem update_read_shape (st : LexSt) (c : Char) :
    ∃ l c2, update_read st c = { st with line := l, col := c2 } := by
  unfold update_read
  split
  · exact ⟨st.line + 1, 0, rfl⟩
  · exact ⟨st.line, st.col + 1, rfl⟩

theorem lexLoop_nil (input : List Char) (st : LexSt) (pos : Nat) :
    lexLoop input st pos [] = st := rfl

theorem lexLoop_cons (input : List Char) (st : LexSt) (pos : Nat) (c : Char)
    (cs : List Char) :
    lexLoop input st pos (c :: cs) = lexLoop input (lexStep input st pos c) (pos + 1) cs := rfl

theorem lexStep_name_other (input : List Char) (st : LexSt) (pos : Nat) (a : Char)
    (hst : st.pstate = ParserState.Name) (hws : rustIsWhitespace a = false)
    (hne : a ≠ ':') : lexStep input st pos a = update_read st a := by
  unfold lexStep
  rw [hst]
  simp only [hws, Bool.false_eq_true, if_false]
  rw [if_pos hne]

theorem lexStep_value_other (input : List Char) (st : LexSt) (pos : Nat) (a : Char)
    (hst : st.pstate = ParserState.Value) (h1 : a ≠ ':') (h2 : a ≠ ';') :
    lexStep input st pos a = update_read st a := by
  unfold lexStep
  rw [hst]
  rw [if_neg h1, if_pos h2]

theorem lexLoop_scan_name (input : List Char) (nm : List Char)
    (h : ∀ c ∈ nm, rustIsWhitespace c = false ∧ c ≠ ':') :
    ∀ (st : LexSt) (pos : Nat) (rest : List Char), st.pstate = ParserState.Name →
    ∃ l c2, lexLoop input st pos (nm ++ rest) =
      lexLoop input { st with line := l, col := c2 } (pos + nm.length) rest := by
  induction nm with
  | nil =>
    intro st pos rest _
    exact ⟨st.line, st.col, by simp⟩
  | cons a nm ih =>
    intro st pos rest hst
    have ha := h a (by simp)
    have hstep : lexStep input st pos a = update_read st a :=
      lexStep_name_other input st pos a hst ha.1 ha.2
    obtain ⟨l0, c0, hshape⟩ := update_read_shape st a
    have hst1 : (update_read st a).pstate = ParserState.Name := by
      rw [hshape]
      exact hst
    obtain ⟨l, c2, heq⟩ := ih (fun c hc => h c (by simp [hc])) (update_read st a)
      (pos + 1) rest hst1
    refine ⟨l, c2, ?_⟩
    rw [List.cons_append, lexLoop_cons, hstep, heq, hshape]
    have hpos : pos + 1 + nm.length = pos + (a :: nm).length := by
      simp [List.length_cons]
      omega
    rw [hpos]

theorem lexLoop_scan_value (input : List Char) (vl : List Char)
    (h : ∀ c ∈ vl, c ≠ ':' ∧ c ≠ ';') :
    ∀ (st : LexSt) (pos : Nat) (rest : List Char), st.pstate = ParserState.Value →
    ∃ l c2, lexLoop input st pos (vl ++ rest) =
      lexLoop input { st with line := l, col := c2 } (pos + vl.length) rest := by
  induction vl with
  | nil =>
    intro st pos rest _
    exact ⟨st.line, st.col, by simp⟩
  | cons a vl ih =>
    intro st pos rest hst
    have ha := h a (by simp)
    have hstep : lexStep input st pos a = update_read st a :=
      lexStep_value_other input st pos a hst ha.1 ha.2
    obtain ⟨l0, c0, hshape⟩ := update_read_shape st a
    have hst1 : (update_read st a).pstate = ParserState.Value := by
      rw [hshape]
      exact hst
    obtain ⟨l, c2, heq⟩ := ih (fun c hc => h c (by simp [hc])) (update_read st a)
      (pos + 1) rest hst1
    refine ⟨l, c2, ?_⟩
    rw [List.cons_append, lexLoop_cons, hstep, heq, hshape]
    have hpos : pos + 1 + vl.length = pos + (a :: vl).length := by
      simp [List.length_cons]
      omega
    rw [hpos]

theorem lexStep_clean_hash (input : List Char) (st : LexSt) (pos : Nat)
    (hst : st.pstate = ParserState.Clean) (hle : st.latestErrors = []) :
    lexStep input st pos '#' =
      update_read { st with pstate := ParserState.Name, startPos := pos + 1 } '#' := by
  have hcl : cleanup_error st ParseErrorCode.StepmaniaExpectedPropertyStart pos = st := by
    unfold cleanup_error
    rw [hle]
    rfl
  unfold lexStep
  rw [hst]
  simp only [show rustIsWhitespace '#' = false by decide, Bool.false_eq_true, if_false]
  rw [if_neg (by decide : ¬(('#' : Char) ≠ '#'))]
  rw [hcl]

theorem lexStep_name_colon (input : List Char) (st : LexSt) (pos : Nat)
    (hst : st.pstate = ParserState.Name) (hle : st.latestErrors = [])
    (nm : List Char)
    (hslice : ((input.drop st.startPos).take (pos - st.startPos)).map Char.toLower = nm) :
    lexStep input st pos ':' =
      update_read
        { (if assocContains st.map nm = true then
            { st with
              latestName := nm,
              errors := st.errors ++
                [⟨ParseErrorCode.StepmaniaDuplicatePropertyName, st.line, st.col, nm.length⟩] }
          else { st with latestName := nm }) with
          pstate := ParserState.Value, startPos := pos + 1 } ':' := by
  unfold lexStep
  rw [hst]
  simp only [show rustIsWhitespace ':' = false by decide, Bool.false_eq_true, if_false]
  rw [if_neg (by decide : ¬((':' : Char) ≠ ':'))]
  rw [hslice]
  by_cases hdup : assocContains st.map nm = true
  · rw [if_pos hdup, if_pos hdup]
    unfold cleanup_error create_error
    simp only [hle, List.find?_nil]
  · rw [if_neg hdup, if_neg hdup]
    unfold cleanup_error
    simp only [hle, List.find?_nil]

theorem lexStep_value_semi (input : List Char) (st : LexSt) (pos : Nat)
    (hst : st.pstate = ParserState.Value) :
    lexStep input st pos ';' =
      update_read
        { st with
          map := assocInsert st.map st.latestName
            ⟨(input.drop st.startPos).take (pos - st.startPos), st.line, st.col,
              pos - st.startPos⟩,
          pstate := ParserState.Clean } ';' := by
  unfold lexStep
  rw [hst]
  rw [if_neg (by decide : ¬((';' : Char) = ':'))]
  rw [if_neg (by decide : ¬((';' : Char) ≠ ';'))]

theorem lexLoop_unit (input : List Char) (u : PropUnit) (hwf : wfUnit u)
    (st : LexSt) (pos : Nat) (rest : List Char)
    (hclean : st.pstate = ParserState.Clean) (hle : st.latestErrors = [])
    (hdrop : input.drop pos = renderUnit u ++ rest) :
    ∃ st', lexLoop input st pos (renderUnit u ++ rest) =
        lexLoop input st' (pos + (renderUnit u).length) rest ∧
      st'.pstate = ParserState.Clean ∧ st'.latestErrors = [] ∧
      (∃ v : UnparsedPropertyValue, v.raw = u.val ∧
        st'.map = assocInsert st.map (lowerName u) v) ∧
      st'.errors.map (·.code) = st.errors.map (·.code) ++
        (if assocContains st.map (lowerName u) then
          [ParseErrorCode.StepmaniaDuplicatePropertyName] else []) := by
  unfold wfUnit at hwf
  obtain ⟨hnne, hnm, hvl⟩ := hwf
  have hsharp : renderUnit u ++ rest = '#' :: (u.name ++ ':' :: (u.val ++ ';' :: rest)) := by
    simp [renderUnit]
  obtain ⟨l0, c0, hsh1⟩ :=
    update_read_shape { st with pstate := ParserState.Name, startPos := pos + 1 } '#'
  obtain ⟨l1, c1, heq2⟩ := lexLoop_scan_name input u.name
    (fun c hc => ⟨(hnm c hc).1, (hnm c hc).2.1⟩)
    { st with pstate := ParserState.Name, startPos := pos + 1, line := l0, col := c0 }
    (pos + 1) (':' :: (u.val ++ ';' :: rest)) rfl
  have hdrop1 : input.drop (pos + 1) = u.name ++ (':' :: (u.val ++ ';' :: rest)) := by
    have h1 : input.drop (pos + 1) = (input.drop pos).drop 1 := by
      rw [List.drop_drop]
    rw [h1, hdrop, hsharp]
    rfl
  have hslice : ((input.drop (pos + 1)).take (pos + 1 + u.name.length - (pos + 1))).map
      Char.toLower = lowerName u := by
    rw [show pos + 1 + u.name.length - (pos + 1) = u.name.length by omega, hdrop1,
      List.take_left]
    rfl
  have hcolon := lexStep_name_colon input
    { st with pstate := ParserState.Name, startPos := pos + 1, line := l1, col := c1 }
    (pos + 1 + u.name.length) rfl hle (lowerName u) hslice
  have hif : (if assocContains st.map (lowerName u) = true then
        { st with
          pstate := ParserState.Name, startPos := pos + 1, line := l1, col := c1,
          latestName := lowerName u,
          errors := st.errors ++
            [⟨ParseErrorCode.StepmaniaDuplicatePropertyName, l1, c1, (lowerName u).length⟩] }
      else
        { st with
          pstate := ParserState.Name, startPos := pos + 1, line := l1, col := c1,
          latestName := lowerName u }) =
      { st with
        pstate := ParserState.Name, startPos := pos + 1, line := l1, col := c1,
        latestName := lowerName u,
        errors := st.errors ++
          (if assocContains st.map (lowerName u) = true then
            [⟨ParseErrorCode.StepmaniaDuplicatePropertyName, l1, c1, (lowerName u).length⟩]
          else []) } := by
    by_cases hdup : assocContains st.map (lowerName u) = true <;> simp [hdup]
  obtain ⟨l2, c2, hsh2⟩ := update_read_shape
    { st with
      pstate := ParserState.Value, startPos := pos + 1 + u.name.length + 1, line := l1,
      col := c1, latestName := lowerName u,
      errors := st.errors ++
        (if assocContains st.map (lowerName u) = true then
          [⟨ParseErrorCode.StepmaniaDuplicatePropertyName, l1, c1, (lowerName u).length⟩]
        else []) } ':'
  obtain ⟨l3, c3, heq4⟩ := lexLoop_scan_value input u.val hvl
    { st with
      pstate := ParserState.Value, startPos := pos + 1 + u.name.length + 1, line := l2,
      col := c2, latestName := lowerName u,
      errors := st.errors ++
        (if assocContains st.map (lowerName u) = true then
          [⟨ParseErrorCode.StepmaniaDuplicatePropertyName, l1, c1, (lowerName u).length⟩]
        else []) }
    (pos + 1 + u.name.length + 1) (';' :: rest) rfl
  have hdrop2 : input.drop (pos + 1 + u.name.length + 1) = u.val ++ (';' :: rest) := by
    have h1 : input.drop (pos + 1 + u.name.length + 1) =
        (input.drop (pos + 1)).drop (u.name.length + 1) := by
      rw [List.drop_drop]
      rfl
    rw [h1, hdrop1]
    rw [show u.name ++ ':' :: (u.val ++ ';' :: rest) =
      (u.name ++ [':']) ++ (u.val ++ ';' :: rest) by simp]
    rw [show u.name.length + 1 = (u.name ++ [':']).length by simp]
    exact List.drop_left _ _
  have hslice2 : (input.drop (pos + 1 + u.name.length + 1)).take
      (pos + 1 + u.name.length + 1 + u.val.length - (pos + 1 + u.name.length + 1)) =
      u.val := by
    rw [show pos + 1 + u.name.length + 1 + u.val.length -
      (pos + 1 + u.name.length + 1) = u.val.length by omega, hdrop2, List.take_left]
  have hsemi := lexStep_value_semi input
    { st with
      pstate := ParserState.Value, startPos := pos + 1 + u.name.length + 1, line := l3,
      col := c3, latestName := lowerName u,
      errors := st.errors ++
        (if assocContains st.map (lowerName u) = true then
          [⟨ParseErrorCode.StepmaniaDuplicatePropertyName, l1, c1, (lowerName u).length⟩]
        else []) }
    (pos + 1 + u.name.length + 1 + u.val.length) rfl
  obtain ⟨l4, c4, hsh4⟩ := update_read_shape
    { st with
      pstate := ParserState.Clean, startPos := pos + 1 + u.name.length + 1, line := l3,
      col := c3, latestName := lowerName u,
      errors := st.errors ++
        (if assocContains st.map (lowerName u) = true then
          [⟨ParseErrorCode.StepmaniaDuplicatePropertyName, l1, c1, (lowerName u).length⟩]
        else []),
      map := assocInsert st.map (lowerName u)
        ⟨(input.drop (pos + 1 + u.name.length + 1)).take
          (pos + 1 + u.name.length + 1 + u.val.length - (pos + 1 + u.name.length + 1)),
          l3, c3,
          pos + 1 + u.name.length + 1 + u.val.length - (pos + 1 + u.name.length + 1)⟩ } ';'
  refine ⟨{ st with
      pstate := ParserState.Clean, startPos := pos + 1 + u.name.length + 1, line := l4,
      col := c4, latestName := lowerName u,
      errors := st.errors ++
        (if assocContains st.map (lowerName u) = true then
          [⟨ParseErrorCode.StepmaniaDuplicatePropertyName, l1, c1, (lowerName u).length⟩]
        else []),
      map := assocInsert st.map (lowerName u)
        ⟨(input.drop (pos + 1 + u.name.length + 1)).take
          (pos + 1 + u.name.length + 1 + u.val.length - (pos + 1 + u.name.length + 1)),
          l3, c3,
          pos + 1 + u.name.length + 1 + u.val.length - (pos + 1 + u.name.length + 1)⟩ },
    ?_, rfl, hle, ⟨_, hslice2, rfl⟩, ?_⟩
  · -- the scanning chain
    rw [hsharp, lexLoop_cons, lexStep_clean_hash input st pos hclean hle, hsh1, heq2,
      lexLoop_cons, hcolon, hif, hsh2, heq4, lexLoop_cons, hsemi, hsh4]
    have hlen : pos + 1 + u.name.length + 1 + u.val.length + 1 =
        pos + (renderUnit u).length := by
      simp [renderUnit]
      omega
    rw [hlen]
  · by_cases hdup : assocContains st.map (lowerName u) = true <;>
      simp [hdup]

theorem lastVal_cons (u : PropUnit) (us : List PropUnit) (k : List Char) :
    lastVal (u :: us) k =
      (lastVal us k).or (if lowerName u = k then some u.val else none) := by
  unfold lastVal
  rw [List.reverse_cons, findUnit_append_or]
  cases h : us.reverse.find? (fun x => decide (lowerName x = k)) with
  | none =>
    by_cases hk : lowerName u = k
    · simp [List.find?_cons, hk, Option.or]
    · simp [List.find?_cons, hk, Option.or]
  | some a =>
    simp [Option.or]

theorem lexRun (input : List Char) (us : List PropUnit) (hwf : ∀ u ∈ us, wfUnit u) :
    ∀ (st : LexSt) (pos : Nat) (seen : List (List Char)),
    st.pstate = ParserState.Clean → st.latestErrors = [] →
    (∀ k, assocContains st.map k = decide (k ∈ seen)) →
    input.drop pos = renderUnits us →
    (lexLoop input st pos (renderUnits us)).pstate = ParserState.Clean ∧
    (lexLoop input st pos (renderUnits us)).latestErrors = [] ∧
    (∀ k, (assocFind (lexLoop input st pos (renderUnits us)).map k).map (·.raw) =
      (lastVal us k).or ((assocFind st.map k).map (·.raw))) ∧
    (lexLoop input st pos (renderUnits us)).errors.map (·.code) =
      st.errors.map (·.code) ++ dupMarks seen us := by
  induction us with
  | nil =>
    intro st pos seen hclean hle hseen _
    refine ⟨hclean, hle, fun k => rfl, ?_⟩
    simp [dupMarks, renderUnits, lexLoop]
  | cons u us ih =>
    intro st pos seen hclean hle hseen hdrop
    have hwfu : wfUnit u := hwf u (by simp)
    have hdrop' : input.drop pos = renderUnit u ++ renderUnits us := hdrop
    obtain ⟨st', hloop, hclean', hle', ⟨v, hvraw, hmap'⟩, herr'⟩ :=
      lexLoop_unit input u hwfu st pos (renderUnits us) hclean hle hdrop'
    have hdropnext : input.drop (pos + (renderUnit u).length) = renderUnits us := by
      have h1 : input.drop (pos + (renderUnit u).length) =
          (input.drop pos).drop ((renderUnit u).length) := by
        rw [List.drop_drop]
      rw [h1, hdrop', List.drop_left]
    have hseen' : ∀ k, assocContains st'.map k = decide (k ∈ lowerName u :: seen) := by
      intro k
      rw [hmap', assocContains_insert, hseen]
      simp [List.mem_cons]
    obtain ⟨hc2, hl2, hfind2, herr2⟩ := ih (fun w hw => hwf w (by simp [hw])) st'
      (pos + (renderUnit u).length) (lowerName u :: seen) hclean' hle' hseen' hdropnext
    rw [show renderUnits (u :: us) = renderUnit u ++ renderUnits us from rfl, hloop]
    refine ⟨hc2, hl2, ?_, ?_⟩
    · intro k
      rw [hfind2 k, lastVal_cons]
      have hv : (assocFind st'.map k).map (·.raw) =
          if k = lowerName u then some u.val else (assocFind st.map k).map (·.raw) := by
        rw [hmap', assocFind_insert]
        by_cases hk : k = lowerName u
        · simp [hk, hvraw]
        · simp [hk]
      rw [hv, option_or_assoc]
      by_cases hk : k = lowerName u
      · subst hk
        simp [Option.or]
      · have hk2 : ¬(lowerName u = k) := fun h => hk h.symm
        simp only [hk, if_false, hk2]
        rfl
    · rw [herr2, herr']
      have hmark : (if assocContains st.map (lowerName u) then
          [ParseErrorCode.StepmaniaDuplicatePropertyName] else []) =
          (if lowerName u ∈ seen then [ParseErrorCode.StepmaniaDuplicatePropertyName]
          else []) := by
        rw [hseen (lowerName u)]
        by_cases hin : lowerName u ∈ seen <;> simp [hin]
      rw [hmark, show dupMarks seen (u :: us) =
        (if lowerName u ∈ seen then [ParseErrorCode.StepmaniaDuplicatePropertyName]
        else []) ++ dupMarks (lowerName u :: seen) us from rfl]
      rw [List.append_assoc]

/-- C3: on any concatenation of well-formed `#NAME:VALUE;` property units (the
glossary's "Property"; `wfUnit` restricts names to ASCII, where the embedded
per-character case folding is exactly the source's `String::to_lowercase`),
the stored value of each case-folded name is that of the last unit carrying
it, and exactly one `DuplicatePropertyName` diagnostic is recorded per unit
whose case-folded name was already stored (and nothing else is recorded); in
particular `"#TITLE:a;#TITLE:b;"` yields `title = "b"` and exactly one
`DuplicatePropertyName` diagnostic. -/
theorem c3_duplicate_property_names :
    (∀ (us : List PropUnit), (∀ u ∈ us, wfUnit u) →
      (∀ k, (assocFind (parse_to_property_map (renderUnits us)).map k).map (·.raw) =
        lastVal us k) ∧
      (parse_to_property_map (renderUnits us)).errors.map (·.code) = dupMarks [] us) ∧
    (assocFind (parse_to_property_map "#TITLE:a;#TITLE:b;".toList).map
      "title".toList).map (·.raw) = some "b".toList ∧
    (parse_to_property_map "#TITLE:a;#TITLE:b;".toList).errors.map (·.code) =
      [ParseErrorCode.StepmaniaDuplicatePropertyName] := by
  refine ⟨?_, by decide, by decide⟩
  intro us hwf
  have h := lexRun (renderUnits us) us hwf initLexSt 0 [] rfl rfl
    (fun k => by simp [assocContains, initLexSt]) (by simp)
  have hne : (lexLoop (renderUnits us) initLexSt 0 (renderUnits us)).pstate ≠
      ParserState.Value := by
    rw [h.1]
    decide
  constructor
  · intro k
    simp only [parse_to_property_map, if_neg hne]
    rw [h.2.2.1 k]
    rw [show (assocFind initLexSt.map k).map (·.raw) = none from rfl, option_or_none]
  · simp only [parse_to_property_map, if_neg hne]
    rw [h.2.2.2]
    rfl

/-- Witness for C3: the two-unit list rendering to `"#TITLE:a;#TITLE:b;"`. -/
theorem c3_witness :
    (∀ u ∈ [(⟨"TITLE".toList, "a".toList⟩ : PropUnit),
      ⟨"TITLE".toList, "b".toList⟩], wfUnit u) ∧
    (assocFind (parse_to_property_map (renderUnits
      [⟨"TITLE".toList, "a".toList⟩, ⟨"TITLE".toList, "b".toList⟩])).map
      "title".toList).map (·.raw) = some "b".toList ∧
    (parse_to_property_map (renderUnits
      [⟨"TITLE".toList, "a".toList⟩, ⟨"TITLE".toList, "b".toList⟩])).errors.map (·.code) =
      [ParseErrorCode.StepmaniaDuplicatePropertyName] := by
  refine ⟨by decide, ?_, ?_⟩
  · exact ((c3_duplicate_property_names.1
      [⟨"TITLE".toList, "a".toList⟩, ⟨"TITLE".toList, "b".toList⟩]
      (by decide)).1 "title".toList).trans (by decide)
  · exact ((c3_duplicate_property_names.1
      [⟨"TITLE".toList, "a".toList⟩, ⟨"TITLE".toList, "b".toList⟩]
      (by decide)).2).trans (by decide)

/-! ### Attack parser lemmas -/

theorem attackStep_other (raw : List Char) (st : AttackSt) (c : Char)
    (h1 : c ≠ '=') (h2 : c ≠ ':') :
    ∃ l, attackStep raw st c = { st with currentLine := l, currentPos := st.currentPos + 1 } := by
  unfold attackStep
  rw [if_neg h1, if_neg h2]
  by_cases hn : c = '\n'
  · exact ⟨st.currentLine + 1, by simp [hn]⟩
  · exact ⟨st.currentLine, by simp [hn]⟩

theorem attackLoop_scan (raw : List Char) (seg : List Char)
    (h : ∀ c ∈ seg, c ≠ ':' ∧ c ≠ '=') :
    ∀ (st : AttackSt) (rest : List Char),
    ∃ l, attackLoop raw st (seg ++ rest) =
      attackLoop raw { st with currentLine := l, currentPos := st.currentPos + seg.length }
        rest := by
  induction seg with
  | nil =>
    intro st rest
    exact ⟨st.currentLine, by simp⟩
  | cons a seg ih =>
    intro st rest
    have ha := h a (by simp)
    obtain ⟨l0, hstep⟩ := attackStep_other raw st a ha.2 ha.1
    obtain ⟨l, heq⟩ := ih (fun c hc => h c (by simp [hc]))
      { st with currentLine := l0, currentPos := st.currentPos + 1 } rest
    refine ⟨l, ?_⟩
    rw [List.cons_append, show attackLoop raw st (a :: (seg ++ rest)) =
      attackLoop raw (attackStep raw st a) (seg ++ rest) from rfl, hstep, heq]
    have : st.currentPos + 1 + seg.length = st.currentPos + (a :: seg).length := by
      simp [List.length_cons]
      omega
    rw [this]

theorem attackStep_eq (raw : List Char) (st : AttackSt) :
    attackStep raw st '=' =
      { st with
        segmentName :=
          (trimChars ((raw.drop st.startPos).take (st.currentPos - st.startPos))).map
            Char.toLower,
        startLine := st.currentLine, startPos := st.currentPos + 1,
        currentPos := st.currentPos + 1 } := by
  rfl

theorem attackSegLoop_time (st : AttackSt) (tmp : UnparsedPropertyValue) (len : Nat)
    (tv : Int) (hname : st.segmentName = "time".toList) (hidx : st.elementIdx = 0)
    (hdec : parse_to_number tmp PRECISION_TIME = (some tv, [])) :
    attackSegLoop st tmp len = { st with startVal := tv } := by
  unfold attackSegLoop
  rw [if_pos hname]
  rw [if_neg (by simp [hidx])]
  rw [hdec]
  show { st with errors := st.errors ++ [], startVal := tv } = _
  rw [List.append_nil]

theorem attackSegLoop_endlen (st : AttackSt) (tmp : UnparsedPropertyValue) (len : Nat)
    (dv : Int) (hidx : st.elementIdx = 1)
    (hname : st.segmentName = "end".toList ∨ st.segmentName = "len".toList)
    (hdec : parse_to_number tmp PRECISION_TIME = (some dv, [])) :
    attackSegLoop st tmp len =
      { st with
        lenVal := if st.segmentName = "len".toList then dv else dv - st.startVal } := by
  have hne : ¬(st.segmentName = "time".toList) := by
    rcases hname with h | h <;> rw [h] <;> decide
  unfold attackSegLoop
  rw [if_neg hne, if_pos ⟨hidx, hname⟩, hdec]
  show { st with errors := st.errors ++ [], lenVal := _ } = _
  rw [List.append_nil]

theorem attackSegLoop_mods (st : AttackSt) (tmp : UnparsedPropertyValue) (len : Nat)
    (hidx : st.elementIdx = 2) (hname : st.segmentName = "mods".toList) :
    attackSegLoop st tmp len =
      { st with
        list := st.list ++ [⟨st.startVal, st.lenVal, []⟩], startVal := 0, lenVal := 0 } := by
  have hne : ¬(st.segmentName = "time".toList) := by rw [hname]; decide
  have hne2 : ¬(st.elementIdx = 1 ∧
      (st.segmentName = "end".toList ∨ st.segmentName = "len".toList)) := by
    rw [hidx, hname]
    rintro ⟨h, _⟩
    exact absurd h (by decide)
  unfold attackSegLoop
  rw [if_neg hne, if_neg hne2, if_pos ⟨hidx, hname⟩]
  show { st with errors := st.errors ++ [], list := _, startVal := 0, lenVal := 0 } = _
  rw [List.append_nil]
  rfl

theorem attackSegTail_mods (st : AttackSt) (tmp : UnparsedPropertyValue) (len : Nat)
    (hidx : st.elementIdx = 2) (hname : st.segmentName = "mods".toList) :
    attackSegTail st tmp len =
      { st with list := st.list ++ [⟨st.startVal, st.lenVal, []⟩] } := by
  have hne : ¬(st.segmentName = "time".toList) := by rw [hname]; decide
  have hne2 : ¬(st.elementIdx = 1 ∧
      (st.segmentName = "end".toList ∨ st.segmentName = "len".toList)) := by
    rw [hidx, hname]
    rintro ⟨h, _⟩
    exact absurd h (by decide)
  unfold attackSegTail
  rw [if_neg hne, if_neg hne2, if_pos ⟨hidx, hname⟩]
  show { st with errors := st.errors ++ [], list := _ } = _
  rw [List.append_nil]
  rfl

theorem drop_chain (raw : List Char) (p q : Nat) (xs ys : List Char)
    (h : raw.drop p = xs ++ ys) (hq : q = p + xs.length) : raw.drop q = ys := by
  subst hq
  have h1 : raw.drop (p + xs.length) = (raw.drop p).drop xs.length := by
    rw [List.drop_drop]
  rw [h1, h, List.drop_left]

theorem take_of_drop (raw : List Char) (p : Nat) (xs ys : List Char) (n : Nat)
    (h : raw.drop p = xs ++ ys) (hn : n = xs.length) : (raw.drop p).take n = xs := by
  subst hn
  rw [h, List.take_left]

theorem attackStep_colon (raw : List Char) (st : AttackSt) (st2 : AttackSt)
    (hseg : attackSegLoop st
      ⟨(raw.drop st.startPos).take (st.currentPos - st.startPos), st.startLine, st.startPos,
        st.currentPos - st.startPos⟩ (st.currentPos - st.startPos) = st2) :
    attackStep raw st ':' =
      { st2 with
        startLine := st.currentLine, startPos := st.currentPos + 1,
        elementIdx := (st2.elementIdx + 1) % 3, currentPos := st2.currentPos + 1 } := by
  rw [← hseg]
  rfl

theorem parse_to_number_of_isSome (tmp : UnparsedPropertyValue)
    (h : (parseNumRaw tmp.raw PRECISION_TIME).isSome = true) :
    parse_to_number tmp PRECISION_TIME =
      (some ((parseNumRaw tmp.raw PRECISION_TIME).getD 0), []) := by
  unfold parse_to_number
  cases hv : parseNumRaw tmp.raw PRECISION_TIME with
  | none => rw [hv] at h; simp at h
  | some v => simp [hv]

theorem attackLoop_cons (raw : List Char) (st : AttackSt) (c : Char) (cs : List Char) :
    attackLoop raw st (c :: cs) = attackLoop raw (attackStep raw st c) cs := rfl

theorem renderTriple_length (tr : AttackTriple) :
    (renderTriple tr).length =
      13 + tr.t.length + tr.k.length + tr.d.length + tr.m.length := by
  simp [renderTriple]
  omega

theorem attackTriple_run (raw : List Char) (tr : AttackTriple) (hwf : wfTriple tr)
    (st : AttackSt) (pos : Nat) (rest : List Char)
    (hidx : st.elementIdx = 0) (hcur : st.currentPos = pos) (hstart : st.startPos = pos)
    (hdrop : raw.drop pos = renderTriple tr ++ rest) :
    ∃ l1 l2, attackLoop raw st (renderTriple tr ++ rest) =
      attackLoop raw
        { st with
          segmentName := "mods".toList,
          startVal := (parseNumRaw tr.t PRECISION_TIME).getD 0,
          lenVal := (expectAttack tr).duration,
          elementIdx := 2,
          currentLine := l1, startLine := l2,
          currentPos := pos + 13 + tr.t.length + tr.k.length + tr.d.length + tr.m.length,
          startPos := pos + 13 + tr.t.length + tr.k.length + tr.d.length } rest ∧
      raw.drop (pos + 13 + tr.t.length + tr.k.length + tr.d.length) = tr.m ++ rest := by
  unfold wfTriple at hwf
  obtain ⟨hWt, hWd, hWm, hWk, hDt, hDd⟩ := hwf
  obtain ⟨L, SN, SV, LV, EI, CL, CP, SL, SP, ER⟩ := st
  simp only at hidx hcur hstart
  subst EI
  subst CP
  subst SP
  have hsh : renderTriple tr ++ rest =
      ['t', 'i', 'm', 'e'] ++ '=' :: (tr.t ++ ':' :: (tr.k ++ '=' :: (tr.d ++ ':' ::
        (['m', 'o', 'd', 's'] ++ '=' :: (tr.m ++ rest))))) := by
    simp [renderTriple]
  have hd0 : raw.drop pos = ['t', 'i', 'm', 'e'] ++ '=' :: (tr.t ++ ':' :: (tr.k ++ '=' ::
      (tr.d ++ ':' :: (['m', 'o', 'd', 's'] ++ '=' :: (tr.m ++ rest))))) := by
    rw [hdrop, hsh]
  have hd1 : raw.drop (pos + 5) = tr.t ++ ':' :: (tr.k ++ '=' ::
      (tr.d ++ ':' :: (['m', 'o', 'd', 's'] ++ '=' :: (tr.m ++ rest)))) :=
    drop_chain raw pos (pos + 5) ['t', 'i', 'm', 'e', '='] _ (by rw [hd0]; rfl) (by simp)
  have hd2 : raw.drop (pos + 6 + tr.t.length) = tr.k ++ '=' ::
      (tr.d ++ ':' :: (['m', 'o', 'd', 's'] ++ '=' :: (tr.m ++ rest))) :=
    drop_chain raw (pos + 5) (pos + 6 + tr.t.length) (tr.t ++ [':']) _
      (by rw [hd1]; simp) (by simp only [List.length_append, List.length_cons, List.length_nil]; try omega)
  have hd3 : raw.drop (pos + 7 + tr.t.length + tr.k.length) = tr.d ++ ':' ::
      (['m', 'o', 'd', 's'] ++ '=' :: (tr.m ++ rest)) :=
    drop_chain raw (pos + 6 + tr.t.length) (pos + 7 + tr.t.length + tr.k.length)
      (tr.k ++ ['=']) _ (by rw [hd2]; simp) (by simp only [List.length_append, List.length_cons, List.length_nil]; try omega)
  have hd4 : raw.drop (pos + 8 + tr.t.length + tr.k.length + tr.d.length) =
      ['m', 'o', 'd', 's'] ++ '=' :: (tr.m ++ rest) :=
    drop_chain raw (pos + 7 + tr.t.length + tr.k.length)
      (pos + 8 + tr.t.length + tr.k.length + tr.d.length)
      (tr.d ++ [':']) _ (by rw [hd3]; simp) (by simp only [List.length_append, List.length_cons, List.length_nil]; try omega)
  have hd5 : raw.drop (pos + 13 + tr.t.length + tr.k.length + tr.d.length) =
      tr.m ++ rest :=
    drop_chain raw (pos + 8 + tr.t.length + tr.k.length + tr.d.length)
      (pos + 13 + tr.t.length + tr.k.length + tr.d.length)
      ['m', 'o', 'd', 's', '='] _ (by rw [hd4]; rfl) (by simp only [List.length_cons, List.length_nil]; try omega)
  have htrimK : (trimChars tr.k).map Char.toLower = tr.k := by
    rcases hWk with h | h <;> rw [h] <;> decide
  -- scan "time"
  obtain ⟨l1, hA⟩ := attackLoop_scan raw ['t', 'i', 'm', 'e'] (by decide)
    ⟨L, SN, SV, LV, 0, CL, pos, SL, pos, ER⟩
    ('=' :: (tr.t ++ ':' :: (tr.k ++ '=' :: (tr.d ++ ':' ::
      (['m', 'o', 'd', 's'] ++ '=' :: (tr.m ++ rest))))))
  -- capture "time"
  have hn1 : ((trimChars ((raw.drop pos).take (pos + 4 - pos))).map Char.toLower) =
      "time".toList := by
    rw [take_of_drop raw pos ['t', 'i', 'm', 'e'] _ (pos + 4 - pos) (by rw [hd0])
      (by simp only [List.length_cons, List.length_nil]; try omega)]
    decide
  -- scan t
  obtain ⟨l2, hC⟩ := attackLoop_scan raw tr.t (fun c hc => (hWt c hc))
    ⟨L, "time".toList, SV, LV, 0, l1, pos + 5, l1, pos + 5, ER⟩
    (':' :: (tr.k ++ '=' :: (tr.d ++ ':' :: (['m', 'o', 'd', 's'] ++ '=' ::
      (tr.m ++ rest)))))
  -- decode t
  have hsliceT : ((raw.drop (pos + 5)).take (pos + 5 + tr.t.length - (pos + 5))) = tr.t :=
    take_of_drop raw (pos + 5) tr.t _ _ (by rw [hd1]) (by omega)
  have hsliceT2 : ((raw.drop (pos + 5)).take tr.t.length) = tr.t :=
    take_of_drop raw (pos + 5) tr.t _ _ (by rw [hd1]) rfl
  have hdecT : parse_to_number
      ⟨(raw.drop (pos + 5)).take (pos + 5 + tr.t.length - (pos + 5)), l1, pos + 5,
        pos + 5 + tr.t.length - (pos + 5)⟩ PRECISION_TIME =
      (some ((parseNumRaw tr.t PRECISION_TIME).getD 0), []) := by
    rw [parse_to_number_of_isSome _ (by simpa [hsliceT2] using hDt)]
    simp [hsliceT2]
  have hsegT := attackSegLoop_time
    ⟨L, "time".toList, SV, LV, 0, l2, pos + 5 + tr.t.length, l1, pos + 5, ER⟩
    ⟨(raw.drop (pos + 5)).take (pos + 5 + tr.t.length - (pos + 5)), l1, pos + 5,
      pos + 5 + tr.t.length - (pos + 5)⟩
    (pos + 5 + tr.t.length - (pos + 5)) ((parseNumRaw tr.t PRECISION_TIME).getD 0)
    rfl rfl hdecT
  -- scan k
  obtain ⟨l3, hE⟩ := attackLoop_scan raw tr.k
    (by rcases hWk with h | h <;> rw [h] <;> decide)
    ⟨L, "time".toList, (parseNumRaw tr.t PRECISION_TIME).getD 0, LV, 1, l2,
      pos + 6 + tr.t.length, l2, pos + 6 + tr.t.length, ER⟩
    ('=' :: (tr.d ++ ':' :: (['m', 'o', 'd', 's'] ++ '=' :: (tr.m ++ rest))))
  -- capture k
  have hn2 : ((trimChars ((raw.drop (pos + 6 + tr.t.length)).take
      (pos + 6 + tr.t.length + tr.k.length - (pos + 6 + tr.t.length)))).map
      Char.toLower) = tr.k := by
    rw [take_of_drop raw (pos + 6 + tr.t.length) tr.k _ _ (by rw [hd2]) (by omega)]
    exact htrimK
  -- scan d
  obtain ⟨l4, hG⟩ := attackLoop_scan raw tr.d (fun c hc => (hWd c hc))
    ⟨L, tr.k, (parseNumRaw tr.t PRECISION_TIME).getD 0, LV, 1, l3,
      pos + 7 + tr.t.length + tr.k.length, l3, pos + 7 + tr.t.length + tr.k.length, ER⟩
    (':' :: (['m', 'o', 'd', 's'] ++ '=' :: (tr.m ++ rest)))
  -- decode d
  have hsliceD : ((raw.drop (pos + 7 + tr.t.length + tr.k.length)).take
      (pos + 7 + tr.t.length + tr.k.length + tr.d.length -
        (pos + 7 + tr.t.length + tr.k.length))) = tr.d :=
    take_of_drop raw _ tr.d _ _ (by rw [hd3]) (by omega)
  have hsliceD2 : ((raw.drop (pos + 7 + tr.t.length + tr.k.length)).take tr.d.length) =
      tr.d :=
    take_of_drop raw _ tr.d _ _ (by rw [hd3]) rfl
  have hdecD : parse_to_number
      ⟨(raw.drop (pos + 7 + tr.t.length + tr.k.length)).take
        (pos + 7 + tr.t.length + tr.k.length + tr.d.length -
          (pos + 7 + tr.t.length + tr.k.length)), l3,
        pos + 7 + tr.t.length + tr.k.length,
        pos + 7 + tr.t.length + tr.k.length + tr.d.length -
          (pos + 7 + tr.t.length + tr.k.length)⟩ PRECISION_TIME =
      (some ((parseNumRaw tr.d PRECISION_TIME).getD 0), []) := by
    rw [parse_to_number_of_isSome _ (by simpa [hsliceD2] using hDd)]
    simp [hsliceD2]
  have hsegD := attackSegLoop_endlen
    ⟨L, tr.k, (parseNumRaw tr.t PRECISION_TIME).getD 0, LV, 1, l4,
      pos + 7 + tr.t.length + tr.k.length + tr.d.length, l3,
      pos + 7 + tr.t.length + tr.k.length, ER⟩
    ⟨(raw.drop (pos + 7 + tr.t.length + tr.k.length)).take
      (pos + 7 + tr.t.length + tr.k.length + tr.d.length -
        (pos + 7 + tr.t.length + tr.k.length)), l3, pos + 7 + tr.t.length + tr.k.length,
      pos + 7 + tr.t.length + tr.k.length + tr.d.length -
        (pos + 7 + tr.t.length + tr.k.length)⟩
    (pos + 7 + tr.t.length + tr.k.length + tr.d.length -
      (pos + 7 + tr.t.length + tr.k.length))
    ((parseNumRaw tr.d PRECISION_TIME).getD 0) rfl hWk hdecD
  -- scan "mods"
  obtain ⟨l5, hI⟩ := attackLoop_scan raw ['m', 'o', 'd', 's'] (by decide)
    ⟨L, tr.k, (parseNumRaw tr.t PRECISION_TIME).getD 0,
      (if tr.k = "len".toList then (parseNumRaw tr.d PRECISION_TIME).getD 0
       else (parseNumRaw tr.d PRECISION_TIME).getD 0 -
         (parseNumRaw tr.t PRECISION_TIME).getD 0), 2, l4,
      pos + 8 + tr.t.length + tr.k.length + tr.d.length, l4,
      pos + 8 + tr.t.length + tr.k.length + tr.d.length, ER⟩
    ('=' :: (tr.m ++ rest))
  -- capture "mods"
  have hn3 : ((trimChars ((raw.drop (pos + 8 + tr.t.length + tr.k.length +
      tr.d.length)).take (pos + 8 + tr.t.length + tr.k.length + tr.d.length + 4 -
      (pos + 8 + tr.t.length + tr.k.length + tr.d.length)))).map Char.toLower) =
      "mods".toList := by
    rw [take_of_drop raw _ ['m', 'o', 'd', 's'] _ _ (by rw [hd4])
      (by simp only [List.length_cons, List.length_nil]; try omega)]
    decide
  -- scan m
  obtain ⟨l6, hK⟩ := attackLoop_scan raw tr.m (fun c hc => (hWm c hc))
    ⟨L, "mods".toList, (parseNumRaw tr.t PRECISION_TIME).getD 0,
      (if tr.k = "len".toList then (parseNumRaw tr.d PRECISION_TIME).getD 0
       else (parseNumRaw tr.d PRECISION_TIME).getD 0 -
         (parseNumRaw tr.t PRECISION_TIME).getD 0), 2, l5,
      pos + 13 + tr.t.length + tr.k.length + tr.d.length, l5,
      pos + 13 + tr.t.length + tr.k.length + tr.d.length, ER⟩ rest
  refine ⟨l6, l5, ?_, hd5⟩
  rw [hsh, hA, attackLoop_cons, attackStep_eq]
  simp only [List.length_cons, List.length_nil]
  rw [hn1]
  rw [show pos + 4 + 1 = pos + 5 by omega]
  rw [hC, attackLoop_cons,
    attackStep_colon raw _ _ hsegT]
  simp only [show (0 + 1) % 3 = 1 from rfl]
  rw [show pos + 5 + tr.t.length + 1 = pos + 6 + tr.t.length by omega]
  rw [hE, attackLoop_cons, attackStep_eq, hn2]
  rw [show pos + 6 + tr.t.length + tr.k.length + 1 =
    pos + 7 + tr.t.length + tr.k.length by omega]
  rw [hG, attackLoop_cons, attackStep_colon raw _ _ hsegD]
  simp only [show (1 + 1) % 3 = 2 from rfl]
  rw [show pos + 7 + tr.t.length + tr.k.length + tr.d.length + 1 =
    pos + 8 + tr.t.length + tr.k.length + tr.d.length by omega]
  rw [hI, attackLoop_cons, attackStep_eq]
  simp only [List.length_cons, List.length_nil]
  rw [hn3]
  rw [show pos + 8 + tr.t.length + tr.k.length + tr.d.length + 4 + 1 =
    pos + 13 + tr.t.length + tr.k.length + tr.d.length by omega]
  rw [hK]
  rfl

theorem attackLoop_nil (raw : List Char) (st : AttackSt) :
    attackLoop raw st [] = st := rfl

theorem attackTriples_run (raw : List Char) (last : AttackTriple)
    (init : List AttackTriple) :
    (∀ u ∈ init ++ [last], wfTriple u) →
    ∀ (st : AttackSt) (pos : Nat) (rest : List Char),
    st.elementIdx = 0 → st.currentPos = pos → st.startPos = pos →
    raw.drop pos = renderTriples (init ++ [last]) ++ rest →
    ∃ l1 l2, attackLoop raw st (renderTriples (init ++ [last]) ++ rest) =
      attackLoop raw
        { st with
          list := st.list ++ init.map expectAttack,
          segmentName := "mods".toList,
          startVal := (expectAttack last).start,
          lenVal := (expectAttack last).duration,
          elementIdx := 2,
          currentLine := l1, startLine := l2,
          currentPos := pos + (renderTriples (init ++ [last])).length,
          startPos := pos + (renderTriples (init ++ [last])).length - last.m.length }
        rest ∧
      raw.drop (pos + (renderTriples (init ++ [last])).length - last.m.length) =
        last.m ++ rest := by
  induction init with
  | nil =>
    intro hwf st pos rest hidx hcur hstart hdrop
    simp only [List.nil_append] at hdrop ⊢
    have hlen1 := renderTriple_length last
    obtain ⟨l1, l2, heq, hdm⟩ := attackTriple_run raw last (hwf last (by simp)) st pos rest
      hidx hcur hstart (by rw [hdrop]; simp [renderTriples])
    refine ⟨l1, l2, ?_, ?_⟩
    · simp only [renderTriples]
      rw [heq]
      refine congrArg (fun s => attackLoop raw s rest) ?_
      rw [AttackSt.mk.injEq]
      exact ⟨by simp, rfl, rfl, rfl, rfl, rfl, by omega, rfl, by omega, rfl⟩
    · rw [show pos + (renderTriples [last]).length - last.m.length =
        pos + 13 + last.t.length + last.k.length + last.d.length by
          simp only [renderTriples]
          omega]
      exact hdm
  | cons tr init2 ih =>
    intro hwf st pos rest hidx hcur hstart hdrop
    have hcons : renderTriples ((tr :: init2) ++ [last]) =
        renderTriple tr ++ ':' :: renderTriples (init2 ++ [last]) := by
      cases init2 <;> rfl
    have hdrop2 : raw.drop pos =
        renderTriple tr ++ (':' :: (renderTriples (init2 ++ [last]) ++ rest)) := by
      rw [hdrop, hcons]
      simp
    obtain ⟨l1, l2, heq, hdm⟩ := attackTriple_run raw tr
      (hwf tr (List.mem_cons_self tr (init2 ++ [last]))) st pos
      (':' :: (renderTriples (init2 ++ [last]) ++ rest)) hidx hcur hstart hdrop2
    have hd2 : raw.drop (pos + 13 + tr.t.length + tr.k.length + tr.d.length +
        tr.m.length + 1) = renderTriples (init2 ++ [last]) ++ rest :=
      drop_chain raw (pos + 13 + tr.t.length + tr.k.length + tr.d.length)
        (pos + 13 + tr.t.length + tr.k.length + tr.d.length + tr.m.length + 1)
        (tr.m ++ [':']) _ (by rw [hdm]; simp)
        (by simp only [List.length_append, List.length_cons, List.length_nil]; try omega)
    obtain ⟨l3, l4, heq2, hdm2⟩ := ih (fun u hu => hwf u (List.mem_cons_of_mem tr hu))
      { st with
        list := st.list ++ [(⟨(parseNumRaw tr.t PRECISION_TIME).getD 0,
          (expectAttack tr).duration, []⟩ : StepmaniaAttack)],
        segmentName := "mods".toList,
        startVal := 0, lenVal := 0, elementIdx := 0,
        currentLine := l1, startLine := l1,
        currentPos := pos + 13 + tr.t.length + tr.k.length + tr.d.length + tr.m.length + 1,
        startPos := pos + 13 + tr.t.length + tr.k.length + tr.d.length + tr.m.length + 1 }
      (pos + 13 + tr.t.length + tr.k.length + tr.d.length + tr.m.length + 1) rest
      rfl rfl rfl hd2
    have hlen2 : (renderTriples ((tr :: init2) ++ [last])).length =
        13 + tr.t.length + tr.k.length + tr.d.length + tr.m.length + 1 +
          (renderTriples (init2 ++ [last])).length := by
      rw [hcons]
      simp only [List.length_append, List.length_cons, renderTriple_length]
      omega
    have hsegM := attackSegLoop_mods
      { st with
        segmentName := "mods".toList,
        startVal := (parseNumRaw tr.t PRECISION_TIME).getD 0,
        lenVal := (expectAttack tr).duration,
        elementIdx := 2,
        currentLine := l1, startLine := l2,
        currentPos := pos + 13 + tr.t.length + tr.k.length + tr.d.length + tr.m.length,
        startPos := pos + 13 + tr.t.length + tr.k.length + tr.d.length }
      ⟨(raw.drop (pos + 13 + tr.t.length + tr.k.length + tr.d.length)).take
        (pos + 13 + tr.t.length + tr.k.length + tr.d.length + tr.m.length -
          (pos + 13 + tr.t.length + tr.k.length + tr.d.length)), l2,
        pos + 13 + tr.t.length + tr.k.length + tr.d.length,
        pos + 13 + tr.t.length + tr.k.length + tr.d.length + tr.m.length -
          (pos + 13 + tr.t.length + tr.k.length + tr.d.length)⟩
      (pos + 13 + tr.t.length + tr.k.length + tr.d.length + tr.m.length -
        (pos + 13 + tr.t.length + tr.k.length + tr.d.length)) rfl rfl
    refine ⟨l3, l4, ?_, ?_⟩
    · rw [show renderTriples ((tr :: init2) ++ [last]) ++ rest =
          renderTriple tr ++ (':' :: (renderTriples (init2 ++ [last]) ++ rest)) by
        rw [hcons]; simp]
      rw [heq, attackLoop_cons, attackStep_colon raw _ _ hsegM]
      simp only [show (2 + 1) % 3 = 0 from rfl]
      rw [heq2]
      refine congrArg (fun s => attackLoop raw s rest) ?_
      rw [AttackSt.mk.injEq]
      exact ⟨by simp [expectAttack, List.append_assoc], rfl, rfl, rfl, rfl, rfl,
        by omega, rfl, by omega, rfl⟩
    · rw [show pos + (renderTriples ((tr :: init2) ++ [last])).length - last.m.length =
        pos + 13 + tr.t.length + tr.k.length + tr.d.length + tr.m.length + 1 +
          (renderTriples (init2 ++ [last])).length - last.m.length by omega]
      exact hdm2

theorem parse_attacks_eq (value : UnparsedPropertyValue) (fin : AttackSt)
    (h : attackLoop value.raw ⟨[], [], 0, 0, 0, value.line, 0, value.line, 0, []⟩
      value.raw = fin) :
    parse_attacks value =
      ((attackSegTail fin
        ⟨(value.raw.drop fin.startPos).take (value.raw.length - fin.startPos),
          fin.startLine, fin.startPos, value.raw.length - fin.startPos⟩
        (value.raw.length - fin.startPos)).list,
       (attackSegTail fin
        ⟨(value.raw.drop fin.startPos).take (value.raw.length - fin.startPos),
          fin.startLine, fin.startPos, value.raw.length - fin.startPos⟩
        (value.raw.length - fin.startPos)).errors) := by
  subst h
  rfl

/-- **C7.** For every attack value that is a non-empty `:`-separated sequence
of well-formed `time=…`, `end=…`/`len=…`, `mods=…` segment triples in the
slot rotation, `parse_attacks` emits exactly one attack record per `mods` key
seen at slot 2 (so one per triple): its start is the decoded `time` value, and
its duration is the decoded value taken directly when the slot-1 key was
`len`, and decoded `end` minus decoded `time` when it was `end`; the trailing
`mods` segment after the final `:`, handled by the duplicated post-loop block,
contributes its record exactly like the in-loop ones, and no diagnostic is
recorded. -/
theorem c7_attack_rotation (trs : List AttackTriple) (line len : Nat)
    (hne : trs ≠ []) (hwf : ∀ tr ∈ trs, wfTriple tr) :
    parse_attacks ⟨renderTriples trs, line, 0, len⟩ = (trs.map expectAttack, []) := by
  rcases trs.eq_nil_or_concat with h | ⟨init, last, rfl⟩
  · exact absurd h hne
  rw [List.concat_eq_append] at hwf ⊢
  obtain ⟨l1, l2, heq, hdm⟩ := attackTriples_run (renderTriples (init ++ [last]))
    last init hwf ⟨[], [], 0, 0, 0, line, 0, line, 0, []⟩ 0 [] rfl rfl rfl (by simp)
  rw [List.append_nil] at heq
  rw [attackLoop_nil] at heq
  rw [parse_attacks_eq ⟨renderTriples (init ++ [last]), line, 0, len⟩ _ heq]
  rw [attackSegTail_mods _ _ _ rfl rfl]
  simp [List.map_append, expectAttack]

set_option maxRecDepth 4000 in
/-- Witness for C7: the concrete two-triple value
`time=1:len=2:mods=boost:time=2.5:end=4:mods=drunk` satisfies the hypotheses
and decodes to the two expected attack records. -/
theorem c7_witness :
    (([⟨"1".toList, "len".toList, "2".toList, "boost".toList⟩,
       ⟨"2.5".toList, "end".toList, "4".toList, "drunk".toList⟩] :
        List AttackTriple) ≠ [] ∧
      ∀ tr ∈ ([⟨"1".toList, "len".toList, "2".toList, "boost".toList⟩,
        ⟨"2.5".toList, "end".toList, "4".toList, "drunk".toList⟩] :
          List AttackTriple), wfTriple tr) ∧
    parse_attacks
      ⟨renderTriples [⟨"1".toList, "len".toList, "2".toList, "boost".toList⟩,
        ⟨"2.5".toList, "end".toList, "4".toList, "drunk".toList⟩], 7, 0, 0⟩ =
      ([⟨1000, 2000, []⟩, ⟨2500, 1500, []⟩], []) :=
  ⟨⟨by decide, by decide⟩,
    (c7_attack_rotation
      [⟨"1".toList, "len".toList, "2".toList, "boost".toList⟩,
       ⟨"2.5".toList, "end".toList, "4".toList, "drunk".toList⟩] 7 0
      (by decide) (by decide)).trans (by decide)⟩
